import Mathlib

set_option linter.unusedVariables false

/-!
Shallow embedding of the boundary-tag best-fit memory allocator of
`allocator.c` (functions `alloc_bf`, `free_block`, `coalesce`, `initRegion`).

Memory is modelled as a total map from byte addresses (`Int`) to the 4-byte
signed integer whose base address is that byte; every access the source
performs is 4-byte aligned, so distinct base addresses never overlap.
C `int` division and remainder truncate toward zero, hence `Int.tdiv` and
`Int.tmod` throughout.  The C loops carry no termination guarantee on
corrupted heaps, so the loop translations take a fuel argument and return
`none` when the fuel runs out (the C program would not have terminated).
-/

/-- Byte-addressed memory; the cell at address `a` holds the 4-byte `int`
whose base address is `a`. -/
def Mem : Type := Int → Int

/-- Store the 4-byte value `v` at base address `a`. -/
def mwrite (m : Mem) (a v : Int) : Mem := fun x => if x = a then v else m x

/-- The recurring source idiom `(block_info / 8) * 8`, which masks off the two
low tag bits of a header word (C division truncates toward zero). -/
def bsize (v : Int) : Int := (v.tdiv 8) * 8

/-- The mutable globals of `allocator.c`: the heap bytes, `first_block`,
`totalallocation` and the `static int done` guard of `initRegion`. -/
structure AllocState where
  mem : Mem
  first_block : Int
  totalallocation : Int
  done : Bool

/-- Translation of `initRegion` (allocator.c:275-337).  The externals are
passed in: `sysPagesize` is `getpagesize()`, `openOk` tells whether
`open("/dev/zero")` succeeded, and `mmapResult` is `some base` when `mmap`
returned the page-aligned zero-filled region starting at `base`.
Note: the source never assigns the global `totalallocation`; this
translation is faithful to that. -/
def initRegion (s : AllocState) (regionSize sysPagesize : Int)
    (openOk : Bool) (mmapResult : Option Int) : Int × AllocState :=
  if s.done then (-1, s)
  else if regionSize ≤ 0 then (-1, s)
  else
    let mem_padding := (sysPagesize - regionSize.tmod sysPagesize).tmod sysPagesize
    let pagesize := regionSize + mem_padding
    if openOk = false then (-1, s)
    else
      match mmapResult with
      | none => (-1, { s with done := false })
      | some mem_ptr =>
        -- mmap over /dev/zero yields a zero-filled region of `pagesize` bytes
        let m0 : Mem := fun a =>
          if mem_ptr ≤ a ∧ a < mem_ptr + pagesize then 0 else s.mem a
        let usable := pagesize - 8
        let fb := mem_ptr + 4
        let m1 := mwrite m0 fb usable
        let m2 := mwrite m1 fb (m1 fb + 2)
        let m3 := mwrite m2 (fb + usable) 1
        let m4 := mwrite m3 (fb + usable - 4) usable
        (0, { mem := m4, first_block := fb,
              totalallocation := s.totalallocation, done := true })

/-- Translation of the best-fit search loop of `alloc_bf`
(allocator.c:105-129).  `pos` is the C pointer `this`, `best` the candidate
pointer.  Returns the final `best` together with the number of loop
iterations executed (the instrumentation is not used by `alloc_bf` itself;
it only makes the early-exit behaviour of the loop observable). -/
def findBest (m : Mem) (size ts : Int) :
    Int → Option Int → Nat → Option (Option Int × Nat)
  | _, _, 0 => none
  | pos, best, fuel+1 =>
    if m pos = 1 then some (best, 0)
    else
      let best1 : Option Int :=
        if (m pos).tmod 2 = 0 ∧ size + 4 ≤ bsize (m pos) then
          match best with
          | none => some pos
          | some b => if bsize (m pos) < bsize (m b) then some pos else some b
        else best
      match best1 with
      | some b =>
        if bsize (m b) = ts then some (some b, 1)
        else
          (findBest m size ts (pos + bsize (m pos)) best1 fuel).map
            (fun r => (r.1, r.2 + 1))
      | none =>
        (findBest m size ts (pos + bsize (m pos)) none fuel).map
          (fun r => (r.1, r.2 + 1))

/-- The placement phase of `alloc_bf` (allocator.c:131-163), run once a best
candidate `best` has been found; `ts` is `total_size`.  Returns the updated
memory. -/
def allocPlace (m : Mem) (best ts : Int) : Mem :=
  let m1 :=
    if 8 ≤ bsize (m best) - ts then
      -- split: write the tail block header, then its footer
      let spl := best + ts
      let mA := mwrite m spl (bsize (m best) - ts + 2)
      let mB := mwrite mA (spl + bsize (mA spl) - 4) (mA spl - 2)
      mB
    else
      -- no split: bump the p-bit of the following block unless it is the end mark
      let nextb := best + bsize (m best)
      if m nextb ≠ 1 then mwrite m nextb (m nextb + 2) else m
  mwrite m1 best (1 + (m1 best).tmod 8 + ts)

/-- The local `padding` of `alloc_bf` (allocator.c:102). -/
def alloc_padding (size : Int) : Int :=
  if (size + 4).tmod 8 = 0 then 0 else 8 - (size + 4).tmod 8

/-- The local `total_size` of `alloc_bf` (allocator.c:103): the requested
size plus the 4-byte header, rounded up to a multiple of 8. -/
def total_size (size : Int) : Int := size + 4 + alloc_padding size

/-- Translation of `alloc_bf` (allocator.c:88-168).  Outer `none` means the
search loop ran out of fuel (the C loop would not have terminated); otherwise
the result is the returned payload pointer (`none` for C `NULL`) and the
resulting state. -/
def alloc_bf (s : AllocState) (size : Int) (fuel : Nat) :
    Option (Option Int × AllocState) :=
  if size ≤ 0 then some (none, s)
  else if s.totalallocation - 4 < size then some (none, s)
  else
    let ts := total_size size
    match findBest s.mem size ts s.first_block none fuel with
    | none => none
    | some (none, _) => some (none, s)
    | some (some best, _) =>
      some (some (best + 4), { s with mem := allocPlace s.mem best ts })

/-- Translation of `free_block` (allocator.c:182-216).  Returns the C result
(0 on success, -1 on failure) and the resulting state. -/
def free_block (s : AllocState) (ptr : Int) : Int × AllocState :=
  if ptr = 0 then (-1, s)
  else if ptr.tmod 8 ≠ 0 then (-1, s)
  else if ptr < s.first_block ∨ s.first_block + s.totalallocation < ptr then (-1, s)
  else if (s.mem (ptr - 4)).tmod 2 ≠ 1 then (-1, s)
  else
    let hd := ptr - 4
    let m1 := mwrite s.mem hd (s.mem hd - 1)
    let this_size := bsize (m1 hd)
    let m2 := mwrite m1 (hd + this_size - 4) this_size
    let nextb := hd + bsize (m2 hd)
    let m3 := if m2 nextb ≠ 1 then mwrite m2 nextb (m2 nextb - 2) else m2
    (0, { s with mem := m3 })

/-- Translation of the loop body and loop of `coalesce` (allocator.c:228-262).
`pos` is the C pointer `this`.  Fuel exhaustion yields `none`. -/
def coalesceLoop (m : Mem) : Int → Nat → Option Mem
  | _, 0 => none
  | pos, fuel+1 =>
    if m pos = 1 then some m
    else
      let m1 :=
        if (m pos).tmod 2 = 0 then
          -- forward merge with the next block when it is free and not the end mark
          let nextb := pos + bsize (m pos)
          let mA :=
            if m nextb ≠ 1 ∧ (m nextb).tmod 2 = 0 then
              let mF := mwrite m pos (m pos + bsize (m nextb))
              mwrite mF (pos + bsize (mF pos) - 4) (bsize (mF pos))
            else m
          -- backward merge when the p-bit of the (possibly grown) block is clear
          if (mA pos).tmod 8 = 0 then
            let prev_size := mA (pos - 4)
            let prev := pos - prev_size
            let mB := mwrite mA prev (mA prev + bsize (mA pos))
            mwrite mB (prev + bsize (mB prev) - 4) (bsize (mB prev))
          else mA
        else m
      coalesceLoop m1 (pos + bsize (m1 pos)) fuel

/-- Translation of `coalesce` (allocator.c:222-265): run the loop from
`first_block`; the C function always returns 0. -/
def coalesce (s : AllocState) (fuel : Nat) : Option (Int × AllocState) :=
  match coalesceLoop s.mem s.first_block fuel with
  | none => none
  | some m => some (0, { s with mem := m })

/-!
Abstract view of the heap: the block list.  A `Blk` records the decoded
header of one block; `seg` states that a memory lays the given blocks out
contiguously from a position, with correct headers and (for free blocks)
correct footers.
-/

/-- A decoded block header: size in bytes (a multiple of 8, header included),
the allocated bit and the previous-block-allocated bit. -/
structure Blk where
  size : Int
  alloc : Bool
  pbit : Bool
deriving DecidableEq, Repr

/-- Header encoding: size plus tag bits (allocator.c:15-47). -/
def encodeB (b : Blk) : Int :=
  b.size + (if b.alloc then 1 else 0) + (if b.pbit then 2 else 0)

/-- Header decoding, by the arithmetic the source uses: `(v/8)*8` for the
size, `v % 2` for the allocated bit, bit 1 for the p-bit. -/
def decodeB (v : Int) : Blk :=
  ⟨bsize v, v.tmod 2 == 1, (v.tdiv 2).tmod 2 == 1⟩

/-- Total byte length of a block list. -/
def sumSizes : List Blk → Int
  | [] => 0
  | b :: l => b.size + sumSizes l

/-- `seg m p l`: memory `m` lays the blocks `l` out contiguously from
position `p`: each header cell holds the block's encoding and each free
block's last 4 bytes hold its raw size. -/
def seg (m : Mem) : Int → List Blk → Bool
  | _, [] => true
  | p, b :: l =>
    (m p == encodeB b) && (b.alloc || (m (p + b.size - 4) == b.size)) &&
      seg m (p + b.size) l

/-- `reprB m p l`: `m` represents exactly the block list `l` starting at
`p`, terminated by the end mark. -/
def reprB (m : Mem) (p : Int) (l : List Blk) : Prop :=
  seg m p l = true ∧ m (p + sumSizes l) = 1

/-- `pchain pa l`: every block's p-bit reflects the allocated status of the
block before it; `pa` is the status of the (virtual) block before the list. -/
def pchain : Bool → List Blk → Bool
  | _, [] => true
  | pa, b :: l => (b.pbit == pa) && pchain b.alloc l

/-- No two consecutive blocks are both free. -/
def noAdjFree : List Blk → Bool
  | b :: c :: l => (b.alloc || c.alloc) && noAdjFree (c :: l)
  | _ => true

/-- All sizes are at least 8 and multiples of 8. -/
def goodSizes (l : List Blk) : Prop := ∀ b ∈ l, 8 ≤ b.size ∧ 8 ∣ b.size

instance (l : List Blk) : Decidable (goodSizes l) := by
  unfold goodSizes; infer_instance

/-- Read the block list out of memory, decoding each header, until the end
mark; `none` when the fuel runs out before the end mark is reached. -/
def readBlocks (m : Mem) : Int → Nat → Option (List Blk)
  | _, 0 => none
  | p, fuel+1 =>
    if m p = 1 then some [] else
      match readBlocks m (p + bsize (m p)) fuel with
      | none => none
      | some l => some (decodeB (m p) :: l)

/-- Position of block `i` of the list laid out from `p`. -/
def posOf (p : Int) (l : List Blk) (i : Nat) : Int := p + sumSizes (l.take i)

/-- `a` lies inside the span of some free block of the list laid out from
`p`. -/
def inFreeSpan : Int → List Blk → Int → Prop
  | _, [], _ => False
  | p, b :: l, a => (b.alloc = false ∧ p ≤ a ∧ a < p + b.size) ∨
      inFreeSpan (p + b.size) l a

/-- Merge every maximal run of adjacent free blocks into a single free block
(the abstract specification of one `coalesce` pass); the merged block keeps
the first block's p-bit. -/
def mr : List Blk → List Blk
  | [] => []
  | b :: l =>
    if b.alloc then b :: mr l
    else
      match mr l with
      | [] => [b]
      | c :: l2 =>
        if c.alloc then b :: c :: l2 else ⟨b.size + c.size, false, b.pbit⟩ :: l2

/-- Backward-merge step at the list level: absorb `b1` into the last
processed block when `b1`'s p-bit is clear (the processed blocks are kept in
reverse order, most recent first). -/
def bmerge (pre : List Blk) (b1 : Blk) : List Blk :=
  if b1.pbit = false then
    match pre with
    | q :: pre2 => ⟨q.size + b1.size, q.alloc, q.pbit⟩ :: pre2
    | [] => b1 :: pre
  else b1 :: pre

/-- The `coalesce` loop replayed on block lists: `pre` holds the blocks
already passed (in reverse order), the second argument the blocks still
ahead of the scan pointer. -/
def cpass : List Blk → List Blk → List Blk
  | pre, [] => pre.reverse
  | pre, [b] =>
    if b.alloc then (b :: pre).reverse else (bmerge pre b).reverse
  | pre, b :: c :: rest2 =>
    if b.alloc then cpass (b :: pre) (c :: rest2)
    else
      if c.alloc = false then
        cpass (bmerge pre ⟨b.size + c.size, false, b.pbit⟩) rest2
      else cpass (bmerge pre b) (c :: rest2)

/-!
Helper lemmas: tag-bit arithmetic, memory writes, layout (`seg`) facts.
-/

theorem mwrite_same (m : Mem) (a v : Int) : mwrite m a v a = v := by
  simp [mwrite]

theorem mwrite_ne (m : Mem) (a v x : Int) (h : x ≠ a) : mwrite m a v x = m x := by
  simp [mwrite, h]

theorem bsize_nonneg_eq (v : Int) (h : 0 ≤ v) : bsize v = v - v % 8 := by
  unfold bsize
  rw [Int.tdiv_eq_ediv h (by norm_num)]
  omega

theorem bsize_add_bits (s b : Int) (hs : 0 ≤ s) (hd : 8 ∣ s)
    (hb : 0 ≤ b) (hb8 : b < 8) : bsize (s + b) = s := by
  rw [bsize_nonneg_eq _ (by omega)]
  obtain ⟨k, rfl⟩ := hd
  omega

/-- A good block: size at least 8 and a multiple of 8. -/
def goodB (b : Blk) : Prop := 8 ≤ b.size ∧ 8 ∣ b.size

instance (b : Blk) : Decidable (goodB b) := by unfold goodB; infer_instance

theorem encodeB_nonneg (b : Blk) (h : goodB b) : 0 ≤ encodeB b := by
  rcases h with ⟨h8, -⟩
  unfold encodeB
  cases b.alloc <;> cases b.pbit <;> simp <;> omega

theorem bsize_encodeB (b : Blk) (h : goodB b) : bsize (encodeB b) = b.size := by
  rcases h with ⟨h8, hd⟩
  have hb : 0 ≤ (if b.alloc then (1:Int) else 0) + (if b.pbit then 2 else 0) ∧
      (if b.alloc then (1:Int) else 0) + (if b.pbit then 2 else 0) < 8 := by
    cases b.alloc <;> cases b.pbit <;> simp
  unfold encodeB
  rw [add_assoc, bsize_add_bits _ _ (by omega) hd hb.1 hb.2]

theorem encodeB_tmod2 (b : Blk) (h : goodB b) :
    (encodeB b).tmod 2 = if b.alloc then 1 else 0 := by
  rcases h with ⟨h8, hd⟩
  obtain ⟨k, hk⟩ := hd
  unfold encodeB
  rw [Int.tmod_eq_emod (by cases b.alloc <;> cases b.pbit <;> simp <;> omega)
    (by norm_num)]
  cases b.alloc <;> cases b.pbit <;> simp <;> omega

theorem encodeB_tdiv2_tmod2 (b : Blk) (h : goodB b) :
    ((encodeB b).tdiv 2).tmod 2 = if b.pbit then 1 else 0 := by
  rcases h with ⟨h8, hd⟩
  obtain ⟨k, hk⟩ := hd
  have hnn : 0 ≤ encodeB b := encodeB_nonneg b ⟨h8, Dvd.intro k hk.symm⟩
  rw [Int.tdiv_eq_ediv hnn (by norm_num)]
  rw [Int.tmod_eq_emod (by positivity) (by norm_num)]
  unfold encodeB at hnn ⊢
  cases b.alloc <;> cases b.pbit <;> simp at hnn ⊢ <;> omega

theorem encodeB_tmod8 (b : Blk) (h : goodB b) :
    (encodeB b).tmod 8 =
      (if b.alloc then 1 else 0) + (if b.pbit then 2 else 0) := by
  rcases h with ⟨h8, hd⟩
  obtain ⟨k, hk⟩ := hd
  have hnn : 0 ≤ encodeB b := encodeB_nonneg b ⟨h8, Dvd.intro k hk.symm⟩
  rw [Int.tmod_eq_emod hnn (by norm_num)]
  unfold encodeB at hnn ⊢
  cases b.alloc <;> cases b.pbit <;> simp at hnn ⊢ <;> omega

theorem encodeB_ne_one (b : Blk) (h : goodB b) : encodeB b ≠ 1 := by
  rcases h with ⟨h8, -⟩
  unfold encodeB
  cases b.alloc <;> cases b.pbit <;> simp <;> omega

theorem decodeB_encodeB (b : Blk) (h : goodB b) : decodeB (encodeB b) = b := by
  unfold decodeB
  rw [bsize_encodeB b h, encodeB_tmod2 b h, encodeB_tdiv2_tmod2 b h]
  cases hb : b.alloc <;> cases hp : b.pbit <;>
    simp [hb, hp] <;> cases b <;> simp_all

theorem sumSizes_append (l1 l2 : List Blk) :
    sumSizes (l1 ++ l2) = sumSizes l1 + sumSizes l2 := by
  induction l1 with
  | nil => simp [sumSizes]
  | cons b l ih => simp [sumSizes, ih]; ring

theorem sumSizes_reverse (l : List Blk) : sumSizes l.reverse = sumSizes l := by
  induction l with
  | nil => rfl
  | cons b l ih => simp [sumSizes, List.reverse_cons, sumSizes_append, ih]; ring

theorem goodSizes_sum_nonneg (l : List Blk) (h : goodSizes l) :
    0 ≤ sumSizes l := by
  induction l with
  | nil => simp [sumSizes]
  | cons b l ih =>
    have hb := h b (by simp)
    have := ih (fun x hx => h x (by simp [hx]))
    simp [sumSizes]
    omega

theorem seg_cons_iff (m : Mem) (p : Int) (b : Blk) (l : List Blk) :
    seg m p (b :: l) = true ↔
      m p = encodeB b ∧ (b.alloc = false → m (p + b.size - 4) = b.size) ∧
        seg m (p + b.size) l = true := by
  simp only [seg, Bool.and_eq_true, Bool.or_eq_true, beq_iff_eq]
  cases hb : b.alloc <;> simp [hb] <;> tauto

theorem seg_append (m : Mem) (p : Int) (l1 l2 : List Blk) :
    seg m p (l1 ++ l2) = true ↔
      seg m p l1 = true ∧ seg m (p + sumSizes l1) l2 = true := by
  induction l1 generalizing p with
  | nil => simp [seg, sumSizes]
  | cons b l ih =>
    simp only [List.cons_append, seg_cons_iff, ih, sumSizes]
    constructor
    · rintro ⟨h1, h2, h3, h4⟩
      refine ⟨⟨h1, h2, h3⟩, ?_⟩
      have : p + b.size + sumSizes l = p + (b.size + sumSizes l) := by ring
      rwa [← this]
    · rintro ⟨⟨h1, h2, h3⟩, h4⟩
      refine ⟨h1, h2, h3, ?_⟩
      have : p + b.size + sumSizes l = p + (b.size + sumSizes l) := by ring
      rwa [this]

theorem seg_ext (m m2 : Mem) (p : Int) (l : List Blk) (hg : goodSizes l)
    (hag : ∀ a, p ≤ a → a < p + sumSizes l → m2 a = m a) :
    seg m p l = true → seg m2 p l = true := by
  induction l generalizing p with
  | nil => simp [seg]
  | cons b l ih =>
    intro h
    rw [seg_cons_iff] at h ⊢
    obtain ⟨h1, h2, h3⟩ := h
    have hb := hg b (by simp)
    have hsum : 0 ≤ sumSizes l :=
      goodSizes_sum_nonneg l (fun x hx => hg x (by simp [hx]))
    have hss : sumSizes (b :: l) = b.size + sumSizes l := rfl
    refine ⟨?_, ?_, ?_⟩
    · rw [hag p (le_refl p) (by rw [hss]; omega)]; exact h1
    · intro hfree
      rw [hag (p + b.size - 4) (by omega) (by rw [hss]; omega)]
      exact h2 hfree
    · exact ih (p + b.size) (fun x hx => hg x (by simp [hx]))
        (fun a ha1 ha2 => hag a (by omega) (by rw [hss]; omega)) h3

/-!
Claim C9: failure atomicity of `alloc_bf`, `free_block` and `initRegion`.
-/

theorem allocMatchAux (m : Mem) (size ts fb : Int) (s s2 : AllocState)
    (fuel : Nat)
    (h : (match findBest m size ts fb none fuel with
          | none => none
          | some (none, _) => some (none, s)
          | some (some best, _) =>
            some (some (best + 4), { s with mem := allocPlace m best ts }))
        = some (none, s2)) : s2 = s := by
  rcases hfb : findBest m size ts fb none fuel with _ | ⟨ob, n⟩
  · rw [hfb] at h; cases h
  · rw [hfb] at h
    cases ob
    · simp only [Option.some.injEq, Prod.mk.injEq] at h
      exact h.2.symm
    · simp only [Option.some.injEq, Prod.mk.injEq] at h
      exact absurd h.1 (Option.some_ne_none _)

/-- C9: whenever `initRegion`, `alloc_bf` or `free_block` returns its failure
result (NULL for alloc, -1 for free and init), the whole allocator state --
heap bytes included -- is exactly the state before the call: all validation
precedes every write. -/
theorem failed_calls_leave_state_unchanged (s : AllocState) :
    (∀ size fuel s2, alloc_bf s size fuel = some (none, s2) → s2 = s) ∧
    (∀ ptr s2, free_block s ptr = (-1, s2) → s2 = s) ∧
    (∀ rs ps ok mm s2, initRegion s rs ps ok mm = (-1, s2) → s2 = s) := by
  refine ⟨?_, ?_, ?_⟩
  · intro size fuel s2 h
    unfold alloc_bf at h
    split_ifs at h with h1 h2
    · simp only [Option.some.injEq, Prod.mk.injEq] at h
      exact h.2.symm
    · simp only [Option.some.injEq, Prod.mk.injEq] at h
      exact h.2.symm
    · exact allocMatchAux s.mem size _ s.first_block s s2 fuel h
  · intro ptr s2 h
    unfold free_block at h
    split_ifs at h <;> simp_all
  · intro rs ps ok mm s2 h
    unfold initRegion at h
    split_ifs at h with h1 h2 h3
    · have := congrArg Prod.snd h
      simpa using this.symm
    · have := congrArg Prod.snd h
      simpa using this.symm
    · have := congrArg Prod.snd h
      simpa using this.symm
    · revert h
      cases mm with
      | none =>
        intro h
        have hs2 : s2 = { s with done := false } := by
          have := congrArg Prod.snd h
          simpa using this.symm
        have hdone : s.done = false := by
          revert h1
          simp
        rw [hs2, ← hdone]
      | some b =>
        intro h
        have := congrArg Prod.fst h
        simp at this

def c9s : AllocState := ⟨fun _ => 0, 0, 0, false⟩

/-- Witness for C9: a concrete failing `free_block` call (null pointer)
leaves the concrete state unchanged. -/
theorem failed_calls_leave_state_unchanged_witness : c9s = c9s :=
  (failed_calls_leave_state_unchanged c9s).2.1 0 c9s (by rfl)

/-!
Claim C1: the end-to-end scenario init(4096); alloc(100); free; coalesce.
The source never assigns the global `totalallocation` (declared at
allocator.c:55, read at lines 93 and 191, written nowhere), so it still
holds 0 after `initRegion` succeeds, and the capacity check of `alloc_bf`
(`size > totalallocation-4`, line 93) rejects every request: `alloc(100)`
returns NULL, contradicting the claim (and `alloc_bf`'s own documentation,
lines 58-84).  The theorem evaluates the translation at the failing input.
-/

def c1s0 : AllocState := ⟨fun _ => 0, 0, 0, false⟩

def c1s1 : AllocState := (initRegion c1s0 4096 4096 true (some 8192)).2

/-- C1 (code bug): with page size 4096 and the mapping at address 8192,
`initRegion 4096` succeeds, yet `totalallocation` still holds 0, so the
following `alloc_bf 100` returns NULL (C1 claims a non-null address) and the
scenario dies at its second step. -/
theorem init4096_then_alloc100_returns_null :
    (initRegion c1s0 4096 4096 true (some 8192)).1 = 0 ∧
    c1s1.totalallocation = 0 ∧
    c1s1.mem c1s1.first_block = 4090 ∧
    alloc_bf c1s1 100 600 = some (none, c1s1) :=
  ⟨by decide, by decide, by decide, rfl⟩

/-!
Claim C5: the validation sequence of `free_block`.  The range check at
allocator.c:190-191 uses `ptr > first_block + totalallocation`, so the
boundary address `first_block + totalallocation` -- which lies outside the
half-open interval claimed -- is NOT rejected.
-/

def c5s : AllocState := ⟨fun a => if a = 20 then 9 else 0, 8, 16, true⟩

/-- C5 counterexample: in the state `c5s` (arena start 8, total size 16), the
address 24 = 8 + 16 lies outside the half-open interval [8, 24), yet
`free_block` accepts it and returns success (0), because the source compares
with `>` rather than `>=`. -/
theorem free_accepts_boundary_address :
    c5s.first_block + c5s.totalallocation ≤ 24 ∧
    (free_block c5s 24).1 = 0 := ⟨by decide, by decide⟩

/-- C5 amended: the checks reject, in order, a null pointer, a pointer not
aligned to 8 bytes, a pointer outside the CLOSED interval
[arenaStart, arenaStart + totalSize] (the boundary address itself passes the
range check), and a pointer whose block is not currently marked allocated;
each failure returns -1 and leaves the state unchanged. -/
theorem free_validation_order (s : AllocState) (ptr : Int) :
    (ptr = 0 → free_block s ptr = (-1, s)) ∧
    (ptr.tmod 8 ≠ 0 → free_block s ptr = (-1, s)) ∧
    (ptr < s.first_block ∨ s.first_block + s.totalallocation < ptr →
      free_block s ptr = (-1, s)) ∧
    (ptr ≠ 0 → ptr.tmod 8 = 0 → s.first_block ≤ ptr →
      ptr ≤ s.first_block + s.totalallocation →
      (s.mem (ptr - 4)).tmod 2 ≠ 1 → free_block s ptr = (-1, s)) := by
  refine ⟨?_, ?_, ?_, ?_⟩ <;> unfold free_block
  · intro h; simp [h]
  · intro h; split_ifs <;> simp_all
  · intro h; split_ifs <;> simp_all <;> omega
  · intro h1 h2 h3 h4 h5; split_ifs <;> simp_all <;> omega

/-- Witness for C5's amended theorem: a concrete misaligned pointer is
rejected with the state unchanged. -/
theorem free_validation_order_witness : free_block c5s 3 = (-1, c5s) :=
  (free_validation_order c5s 3).2.1 (by decide)

/-!
Claim C4: the layout established by a successful `initRegion`.
-/

/-- The padded region size computed at allocator.c:300-303: `regionSize`
rounded up to the next multiple of the page size. -/
def paddedSize (regionSize sysPagesize : Int) : Int :=
  regionSize + (sysPagesize - regionSize.tmod sysPagesize).tmod sysPagesize

theorem paddedSize_dvd (regionSize sysPagesize : Int) (hrs : 0 < regionSize)
    (hps : 0 < sysPagesize) :
    sysPagesize ∣ paddedSize regionSize sysPagesize ∧
    sysPagesize ≤ paddedSize regionSize sysPagesize := by
  have h1 : regionSize.tmod sysPagesize = regionSize % sysPagesize :=
    Int.tmod_eq_emod (by omega) (by omega)
  have hr0 : 0 ≤ regionSize % sysPagesize := Int.emod_nonneg _ (by omega)
  have hrlt : regionSize % sysPagesize < sysPagesize := Int.emod_lt_of_pos _ hps
  have hdef : regionSize % sysPagesize
      = regionSize - sysPagesize * (regionSize / sysPagesize) := Int.emod_def _ _
  have h2 : (sysPagesize - regionSize.tmod sysPagesize).tmod sysPagesize
      = (sysPagesize - regionSize % sysPagesize) % sysPagesize := by
    rw [h1]
    exact Int.tmod_eq_emod (by omega) (by omega)
  have hpad0 : 0 ≤ (sysPagesize - regionSize.tmod sysPagesize).tmod sysPagesize := by
    rw [h2]
    exact Int.emod_nonneg _ (by omega)
  have hdvd : sysPagesize ∣ paddedSize regionSize sysPagesize := by
    unfold paddedSize
    rw [h2]
    by_cases hz : regionSize % sysPagesize = 0
    · rw [hz]
      simp
      exact ⟨regionSize / sysPagesize, by omega⟩
    · rw [Int.emod_eq_of_lt (by omega) (by omega)]
      exact ⟨regionSize / sysPagesize + 1, by rw [mul_add]; omega⟩
  refine ⟨hdvd, Int.le_of_dvd (by unfold paddedSize; omega) hdvd⟩

/-- C4: a successful `initRegion` call (page size a multiple of 8, at least
16) rounds the region up to a page multiple, reserves 4 leading bytes of
padding, writes the first header at the aligned start `base + 4` holding
size `padded - 8` (the padded size minus the 8 bytes reserved for the
alignment padding and the end mark) with allocated = false and
prevAllocated = true, writes the matching footer, and places the end mark,
value exactly 1, directly after the usable region; together these are
exactly `reprB` of the one-block list. -/
theorem initRegion_layout (s : AllocState) (regionSize sysPagesize B : Int)
    (hdone : s.done = false) (hrs : 0 < regionSize)
    (hps8 : 8 ∣ sysPagesize) (hps16 : 16 ≤ sysPagesize) :
    (initRegion s regionSize sysPagesize true (some B)).1 = 0 ∧
    (initRegion s regionSize sysPagesize true (some B)).2.first_block
      = B + 4 ∧
    (initRegion s regionSize sysPagesize true (some B)).2.mem (B + 4)
      = (paddedSize regionSize sysPagesize - 8) + 2 ∧
    decodeB ((paddedSize regionSize sysPagesize - 8) + 2)
      = ⟨paddedSize regionSize sysPagesize - 8, false, true⟩ ∧
    reprB (initRegion s regionSize sysPagesize true (some B)).2.mem (B + 4)
      [⟨paddedSize regionSize sysPagesize - 8, false, true⟩] := by
  obtain ⟨hdvd, hge⟩ := paddedSize_dvd regionSize sysPagesize hrs (by omega)
  set P := paddedSize regionSize sysPagesize with hP
  have hU8 : 8 ≤ P - 8 := by omega
  have hUdvd : (8 : Int) ∣ P - 8 := by
    obtain ⟨c, hc⟩ := dvd_trans hps8 hdvd
    exact ⟨c - 1, by rw [mul_sub]; omega⟩
  have hgood : goodB ⟨P - 8, false, true⟩ := ⟨hU8, hUdvd⟩
  have henc : encodeB ⟨P - 8, false, true⟩ = (P - 8) + 2 := by
    simp [encodeB]
  have hrun : initRegion s regionSize sysPagesize true (some B) =
      (0, { mem :=
              mwrite (mwrite (mwrite (mwrite
                (fun a => if B ≤ a ∧ a < B + P then 0 else s.mem a)
                (B + 4) (P - 8))
                (B + 4) ((mwrite
                  (fun a => if B ≤ a ∧ a < B + P then 0 else s.mem a)
                  (B + 4) (P - 8)) (B + 4) + 2))
                (B + 4 + (P - 8)) 1)
                (B + 4 + (P - 8) - 4) (P - 8),
            first_block := B + 4, totalallocation := s.totalallocation,
            done := true }) := by
    unfold initRegion
    rw [hdone]
    rw [if_neg (by simp), if_neg (by omega), if_neg (by simp)]
    rfl
  rw [hrun]
  have hc1 : (B + 4 : Int) ≠ B + 4 + (P - 8) - 4 := by omega
  have hc2 : (B + 4 : Int) ≠ B + 4 + (P - 8) := by omega
  have hc3 : (B + 4 + (P - 8) : Int) ≠ B + 4 + (P - 8) - 4 := by omega
  have hhdr : (mwrite (mwrite (mwrite (mwrite
      (fun a => if B ≤ a ∧ a < B + P then 0 else s.mem a)
      (B + 4) (P - 8))
      (B + 4) ((mwrite (fun a => if B ≤ a ∧ a < B + P then 0 else s.mem a)
        (B + 4) (P - 8)) (B + 4) + 2))
      (B + 4 + (P - 8)) 1)
      (B + 4 + (P - 8) - 4) (P - 8)) (B + 4) = (P - 8) + 2 := by
    rw [mwrite_ne _ _ _ _ hc1, mwrite_ne _ _ _ _ hc2, mwrite_same,
      mwrite_same]
  refine ⟨rfl, rfl, hhdr, ?_, ?_⟩
  · rw [← henc, decodeB_encodeB _ hgood]
  · constructor
    · rw [seg_cons_iff]
      refine ⟨hhdr.trans henc.symm, ?_, by simp [seg]⟩
      intro hfree
      exact mwrite_same _ _ _
    · dsimp only [sumSizes]
      have harith : B + 4 + (P - 8 + 0) = B + 4 + (P - 8) := by ring
      rw [harith, mwrite_ne _ _ _ _ (by omega), mwrite_same]

def c4s : AllocState := ⟨fun _ => 5, 0, 0, false⟩

/-- Witness for C4 at the concrete call `initRegion 4096` with page size
4096 and mapping base 8192. -/
theorem initRegion_layout_witness :
    (initRegion c4s 4096 4096 true (some 8192)).1 = 0 ∧
    (initRegion c4s 4096 4096 true (some 8192)).2.first_block = 8192 + 4 ∧
    (initRegion c4s 4096 4096 true (some 8192)).2.mem (8192 + 4)
      = (paddedSize 4096 4096 - 8) + 2 ∧
    decodeB ((paddedSize 4096 4096 - 8) + 2)
      = ⟨paddedSize 4096 4096 - 8, false, true⟩ ∧
    reprB (initRegion c4s 4096 4096 true (some 8192)).2.mem (8192 + 4)
      [⟨paddedSize 4096 4096 - 8, false, true⟩] :=
  initRegion_layout c4s 4096 4096 8192 (by decide) (by decide)
    (by decide) (by decide)

/-!
Encode-level views of the bit operations the source performs by adding or
subtracting 1 and 2 on header words.
-/

theorem encodeB_sub_one (b : Blk) (ha : b.alloc = true) :
    encodeB b - 1 = encodeB ⟨b.size, false, b.pbit⟩ := by
  cases hp : b.pbit <;> simp [encodeB, ha, hp] <;> ring

theorem encodeB_sub_two (b : Blk) (hp : b.pbit = true) :
    encodeB b - 2 = encodeB ⟨b.size, b.alloc, false⟩ := by
  cases ha : b.alloc <;> simp [encodeB, ha, hp] <;> ring

theorem encodeB_add_two (b : Blk) (hp : b.pbit = false) :
    encodeB b + 2 = encodeB ⟨b.size, b.alloc, true⟩ := by
  cases ha : b.alloc <;> simp [encodeB, ha, hp] <;> ring

/-!
Claim C6: the success path of `free_block`.
-/

/-- C6: a successful `free_block` on a block with header `encodeB b`
(allocated, good size) clears only the allocated bit of that header, writes
the raw size as a footer at the block's tail, leaves the following cell
unchanged when it is the end mark and decrements it by 2 otherwise (which,
when that cell is a header whose prevAllocated bit is set, exactly clears
that bit), and writes nothing else: the freed block stays a standalone free
block of the same size. -/
theorem free_success_postcondition (s : AllocState) (ptr : Int) (b : Blk)
    (hb : goodB b) (halloc : b.alloc = true)
    (hhdr : s.mem (ptr - 4) = encodeB b)
    (h0 : ptr ≠ 0) (hal : ptr.tmod 8 = 0)
    (hlo : s.first_block ≤ ptr)
    (hhi : ptr ≤ s.first_block + s.totalallocation) :
    (free_block s ptr).1 = 0 ∧
    (free_block s ptr).2.mem (ptr - 4) = encodeB ⟨b.size, false, b.pbit⟩ ∧
    (free_block s ptr).2.mem (ptr - 4 + b.size - 4) = b.size ∧
    (s.mem (ptr - 4 + b.size) = 1 →
      (free_block s ptr).2.mem (ptr - 4 + b.size) = s.mem (ptr - 4 + b.size)) ∧
    (s.mem (ptr - 4 + b.size) ≠ 1 →
      (free_block s ptr).2.mem (ptr - 4 + b.size)
        = s.mem (ptr - 4 + b.size) - 2) ∧
    (∀ c : Blk, c.pbit = true → s.mem (ptr - 4 + b.size) = encodeB c →
      encodeB c ≠ 1 →
      (free_block s ptr).2.mem (ptr - 4 + b.size)
        = encodeB ⟨c.size, c.alloc, false⟩) ∧
    (∀ a, a ≠ ptr - 4 → a ≠ ptr - 4 + b.size - 4 → a ≠ ptr - 4 + b.size →
      (free_block s ptr).2.mem a = s.mem a) := by
  have hsz := hb.1
  have h0' : ¬ ptr = 0 := h0
  have hal' : ¬ ptr.tmod 8 ≠ 0 := by simp [hal]
  have hr' : ¬ (ptr < s.first_block ∨ s.first_block + s.totalallocation < ptr) := by
    omega
  have ha' : ¬ (s.mem (ptr - 4)).tmod 2 ≠ 1 := by
    rw [hhdr, encodeB_tmod2 b hb, halloc]
    simp
  have hgood2 : goodB ⟨b.size, false, b.pbit⟩ := hb
  have e1 : s.mem (ptr - 4) - 1 = encodeB ⟨b.size, false, b.pbit⟩ := by
    rw [hhdr]; exact encodeB_sub_one b halloc
  simp only [free_block, if_neg h0', if_neg hal', if_neg hr', if_neg ha']
  rw [e1]
  rw [mwrite_same, bsize_encodeB _ hgood2]
  have hfne : (ptr - 4 : Int) ≠ ptr - 4 + b.size - 4 := by omega
  rw [mwrite_ne _ _ _ _ hfne, mwrite_same, bsize_encodeB _ hgood2]
  have hn1 : ptr - 4 + b.size ≠ ptr - 4 + b.size - 4 := by omega
  have hn2 : ptr - 4 + b.size ≠ ptr - 4 := by omega
  have hnext : (mwrite (mwrite s.mem (ptr - 4) (encodeB ⟨b.size, false, b.pbit⟩))
      (ptr - 4 + b.size - 4) b.size) (ptr - 4 + b.size)
      = s.mem (ptr - 4 + b.size) := by
    rw [mwrite_ne _ _ _ _ hn1, mwrite_ne _ _ _ _ hn2]
  simp only [hnext]
  by_cases hend : s.mem (ptr - 4 + b.size) = 1
  · rw [if_neg (by simp [hend])]
    refine ⟨by trivial, ?_, ?_, ?_, ?_, ?_, ?_⟩
    · rw [mwrite_ne _ _ _ _ hfne, mwrite_same]
    · rw [mwrite_same]
    · intro h
      rw [mwrite_ne _ _ _ _ hn1, mwrite_ne _ _ _ _ hn2]
    · intro h; exact absurd hend h
    · intro c hc hcv hc1
      rw [hend] at hcv
      exact absurd hcv.symm hc1
    · intro a ha1 ha2 ha3
      rw [mwrite_ne _ _ _ _ ha2, mwrite_ne _ _ _ _ ha1]
  · rw [if_pos (by simp [hend])]
    refine ⟨by trivial, ?_, ?_, ?_, ?_, ?_, ?_⟩
    · rw [mwrite_ne _ _ _ _ hn2.symm, mwrite_ne _ _ _ _ hfne, mwrite_same]
    · rw [mwrite_ne _ _ _ _ hn1.symm, mwrite_same]
    · intro h; exact absurd h hend
    · intro h
      rw [mwrite_same]
    · intro c hc hcv hc1
      rw [mwrite_same, hcv]
      exact encodeB_sub_two c hc
    · intro a ha1 ha2 ha3
      rw [mwrite_ne _ _ _ _ ha3, mwrite_ne _ _ _ _ ha2, mwrite_ne _ _ _ _ ha1]

def c6s : AllocState :=
  ⟨fun a => if a = 12 then 11 else if a = 20 then 9 else 0, 8, 32, true⟩

/-- Witness for C6 at a concrete state: freeing the allocated 8-byte block
whose payload starts at 16 succeeds. -/
theorem free_success_postcondition_witness : (free_block c6s 16).1 = 0 :=
  (free_success_postcondition c6s 16 ⟨8, true, true⟩ (by decide) (by decide)
    (by decide) (by decide) (by decide) (by decide) (by decide)).1

/-!
Claim C2: best-fit search.  `findBest_go` is the loop invariant proof for
the scan loop of `alloc_bf`, conditional on the loop having returned.
-/

theorem goodSizes_cons (b : Blk) (l : List Blk) :
    goodSizes (b :: l) ↔ goodB b ∧ goodSizes l := by
  unfold goodSizes goodB
  simp [List.forall_mem_cons]

theorem steps_shift {α : Type} (P : α → Bool) (b : α) (l : List α)
    (hPb : P b = false) (st : Nat)
    (h : st = if l.any P then l.findIdx P + 1 else l.length) :
    st + 1 = if (b :: l).any P then (b :: l).findIdx P + 1
      else (b :: l).length := by
  rw [List.any_cons, List.findIdx_cons, hPb]
  simp only [Bool.false_or, cond_false, List.length_cons]
  split_ifs at h ⊢ <;> omega


theorem bestfit_here (m : Mem) (ts p : Int) (b : Blk) (l : List Blk) (q : Int)
    (P : Blk → Prop)
    (hq : q = p) (hballoc : b.alloc = false) (hbts : ts ≤ b.size)
    (hbsz : bsize (m p) = b.size) (hP : P b)
    (hmin : ∀ x ∈ l, x.alloc = false → ts ≤ x.size → b.size ≤ x.size) :
    ∃ l1a ca l2a, b :: l = l1a ++ ca :: l2a ∧ q = p + sumSizes l1a ∧
      ca.alloc = false ∧ ts ≤ ca.size ∧ bsize (m q) = ca.size ∧ P ca ∧
      (∀ x ∈ b :: l, x.alloc = false → ts ≤ x.size → ca.size ≤ x.size) ∧
      (∀ x ∈ l1a, x.alloc = false → ts ≤ x.size → ca.size < x.size) := by
  refine ⟨[], b, l, rfl, by simp [sumSizes, hq], hballoc, hbts,
    by rw [hq, hbsz], hP, ?_, by simp⟩
  intro x hx
  rcases List.mem_cons.mp hx with rfl | hxl
  · intro _ _; exact le_refl _
  · exact hmin x hxl

theorem bestfit_lift (m : Mem) (ts p : Int) (b : Blk) (l l1 l2 : List Blk)
    (c : Blk) (q : Int) (P : Blk → Prop)
    (happ : l = l1 ++ c :: l2) (hqpos : q = p + b.size + sumSizes l1)
    (hc1 : c.alloc = false) (hc2 : ts ≤ c.size) (hc3 : bsize (m q) = c.size)
    (hP : P c)
    (hmin : ∀ x ∈ l, x.alloc = false → ts ≤ x.size → c.size ≤ x.size)
    (hstrict : ∀ x ∈ l1, x.alloc = false → ts ≤ x.size → c.size < x.size)
    (hb : b.alloc = false → ts ≤ b.size → c.size < b.size) :
    ∃ l1a ca l2a, b :: l = l1a ++ ca :: l2a ∧ q = p + sumSizes l1a ∧
      ca.alloc = false ∧ ts ≤ ca.size ∧ bsize (m q) = ca.size ∧ P ca ∧
      (∀ x ∈ b :: l, x.alloc = false → ts ≤ x.size → ca.size ≤ x.size) ∧
      (∀ x ∈ l1a, x.alloc = false → ts ≤ x.size → ca.size < x.size) := by
  refine ⟨b :: l1, c, l2, by rw [happ, List.cons_append],
    by rw [hqpos]; simp [sumSizes]; ring, hc1, hc2, hc3, hP, ?_, ?_⟩
  · intro x hx
    rcases List.mem_cons.mp hx with rfl | hxl
    · intro h1 h2; exact le_of_lt (hb h1 h2)
    · exact hmin x hxl
  · intro x hx
    rcases List.mem_cons.mp hx with rfl | hxl
    · intro h1 h2; exact hb h1 h2
    · exact hstrict x hxl

theorem findBest_go (m : Mem) (n ts : Int)
    (hts4 : n + 4 ≤ ts)
    (htsmin : ∀ sz : Int, 8 ∣ sz → n + 4 ≤ sz → ts ≤ sz) :
    ∀ (l : List Blk) (p : Int) (bO : Option Int) (bsz : Int) (fuel : Nat)
      (res : Option Int) (steps : Nat),
    seg m p l = true → m (p + sumSizes l) = 1 → goodSizes l →
    (bO = none ∨ ∃ qb, bO = some qb ∧ bsize (m qb) = bsz ∧ ts ≤ bsz ∧ bsz ≠ ts) →
    findBest m n ts p bO fuel = some (res, steps) →
    ((res = none → bO = none ∧ ∀ b ∈ l, ¬(b.alloc = false ∧ ts ≤ b.size)) ∧
     (∀ q, res = some q →
       (bO = some q ∧ ∀ b ∈ l, b.alloc = false → ts ≤ b.size → bsz ≤ b.size) ∨
       (∃ l1 c l2, l = l1 ++ c :: l2 ∧ q = p + sumSizes l1 ∧
         c.alloc = false ∧ ts ≤ c.size ∧ bsize (m q) = c.size ∧
         (bO = none ∨ c.size < bsz) ∧
         (∀ b ∈ l, b.alloc = false → ts ≤ b.size → c.size ≤ b.size) ∧
         (∀ b ∈ l1, b.alloc = false → ts ≤ b.size → c.size < b.size))) ∧
     (steps = if l.any (fun b => !b.alloc && (b.size == ts))
       then (l.findIdx (fun b => !b.alloc && (b.size == ts))) + 1
       else l.length)) := by
  intro l
  induction l with
  | nil =>
    intro p bO bsz fuel res steps hseg hsent hg hbO hrun
    cases fuel with
    | zero => cases hrun
    | succ f =>
      rw [show p + sumSizes [] = p by simp [sumSizes]] at hsent
      simp only [findBest, if_pos hsent, Option.some.injEq, Prod.mk.injEq]
        at hrun
      obtain ⟨hres, hsteps⟩ := hrun
      refine ⟨?_, ?_, ?_⟩
      · intro h
        exact ⟨hres ▸ h, by simp⟩
      · intro q hq
        exact Or.inl ⟨hres ▸ hq, by simp⟩
      · simp [← hsteps]
  | cons b l ih =>
    intro p bO bsz fuel res steps hseg hsent hg hbO hrun
    cases fuel with
    | zero => cases hrun
    | succ f =>
      rw [seg_cons_iff] at hseg
      obtain ⟨hmp, hft, hsegl⟩ := hseg
      rw [goodSizes_cons] at hg
      obtain ⟨hgb, hgl⟩ := hg
      have hsent2 : m (p + b.size + sumSizes l) = 1 := by
        have h : p + b.size + sumSizes l = p + sumSizes (b :: l) := by
          simp [sumSizes]; ring
        rw [h]; exact hsent
      have hne1 : m p ≠ 1 := by rw [hmp]; exact encodeB_ne_one b hgb
      have hbsz : bsize (m p) = b.size := by rw [hmp]; exact bsize_encodeB b hgb
      have htm2 : (m p).tmod 2 = if b.alloc then 1 else 0 := by
        rw [hmp]; exact encodeB_tmod2 b hgb
      simp only [findBest, if_neg hne1] at hrun
      by_cases hqual0 : (m p).tmod 2 = 0 ∧ n + 4 ≤ bsize (m p)
      · -- the block qualifies
        have halloc : b.alloc = false := by
          rcases hqual0 with ⟨h1, -⟩
          rw [htm2] at h1
          cases hba : b.alloc
          · rfl
          · rw [hba] at h1; norm_num at h1
        have hs4 : n + 4 ≤ b.size := by rw [← hbsz]; exact hqual0.2
        have htsle : ts ≤ b.size := htsmin _ hgb.2 hs4
        rw [if_pos hqual0] at hrun
        cases bO with
        | none =>
          dsimp only at hrun
          by_cases hex0 : bsize (m p) = ts
          · have hex : b.size = ts := by rw [← hbsz]; exact hex0
            rw [if_pos hex0] at hrun
            simp only [Option.some.injEq, Prod.mk.injEq] at hrun
            obtain ⟨hres, hsteps⟩ := hrun
            refine ⟨?_, ?_, ?_⟩
            · intro h; rw [← hres] at h; cases h
            · intro q hq
              rw [← hres] at hq
              have hqp : q = p := (Option.some_inj.mp hq).symm
              exact Or.inr (bestfit_here m ts p b l q
                (fun c => (none : Option Int) = none ∨ c.size < bsz)
                hqp halloc htsle hbsz (Or.inl rfl)
                (fun x hx h1 h2 => hex ▸ h2))
            · simp only [List.any_cons, List.findIdx_cons]
              simp [halloc, hex, ← hsteps]
          · have hex : b.size ≠ ts := by rw [← hbsz]; exact hex0
            rw [if_neg hex0] at hrun
            rw [Option.map_eq_some'] at hrun
            obtain ⟨⟨res0, steps0⟩, hrec, hmap⟩ := hrun
            rw [hbsz] at hrec
            simp only [Prod.mk.injEq] at hmap
            obtain ⟨hres, hsteps⟩ := hmap
            have hinv : (some p = none ∨ ∃ qc, some p = some qc ∧
                bsize (m qc) = b.size ∧ ts ≤ b.size ∧ b.size ≠ ts) :=
              Or.inr ⟨p, rfl, hbsz, htsle, hex⟩
            obtain ⟨hA, hB, hC⟩ := ih (p + b.size) (some p) b.size f res0 steps0
              hsegl hsent2 hgl hinv hrec
            refine ⟨?_, ?_, ?_⟩
            · intro h
              rw [← hres] at h
              exact absurd (hA h).1 (by simp)
            · intro q hq
              rw [← hres] at hq
              rcases hB q hq with ⟨hq1, hq2⟩ |
                ⟨l1, c, l2, happ, hqpos, hc1, hc2, hc3, hc4, hc5, hc6⟩
              · have hqp : q = p := (Option.some_inj.mp hq1).symm
                exact Or.inr (bestfit_here m ts p b l q
                  (fun c => (none : Option Int) = none ∨ c.size < bsz)
                  hqp halloc htsle hbsz (Or.inl rfl) hq2)
              · have hclt : c.size < b.size := hc4.resolve_left (by simp)
                exact Or.inr (bestfit_lift m ts p b l l1 l2 c q
                  (fun c => (none : Option Int) = none ∨ c.size < bsz)
                  happ hqpos hc1 hc2 hc3 (Or.inl rfl) hc5 hc6
                  (fun _ _ => hclt))
            · have hPb : (fun c : Blk => !c.alloc && (c.size == ts)) b = false := by
                simp [halloc, hex]
              rw [← hsteps]
              exact steps_shift _ b l hPb steps0 hC
        | some qb =>
          rcases hbO with h | ⟨qb2, hqb2, hqbsz, htsbsz, hnebsz⟩
          · cases h
          have hqbeq : qb2 = qb := Option.some_inj.mp hqb2.symm
          rw [hqbeq] at hqbsz
          dsimp only at hrun
          by_cases hlt0 : bsize (m p) < bsize (m qb)
          · rw [if_pos hlt0] at hrun
            dsimp only at hrun
            have hlt : b.size < bsz := by rw [← hbsz, ← hqbsz]; exact hlt0
            by_cases hex0 : bsize (m p) = ts
            · have hex : b.size = ts := by rw [← hbsz]; exact hex0
              rw [if_pos hex0] at hrun
              simp only [Option.some.injEq, Prod.mk.injEq] at hrun
              obtain ⟨hres, hsteps⟩ := hrun
              refine ⟨?_, ?_, ?_⟩
              · intro h; rw [← hres] at h; cases h
              · intro q hq
                rw [← hres] at hq
                have hqp : q = p := (Option.some_inj.mp hq).symm
                exact Or.inr (bestfit_here m ts p b l q
                  (fun c => (some qb : Option Int) = none ∨ c.size < bsz)
                  hqp halloc htsle hbsz (Or.inr hlt)
                  (fun x hx h1 h2 => hex ▸ h2))
              · simp only [List.any_cons, List.findIdx_cons]
                simp [halloc, hex, ← hsteps]
            · have hex : b.size ≠ ts := by rw [← hbsz]; exact hex0
              rw [if_neg hex0] at hrun
              rw [Option.map_eq_some'] at hrun
              obtain ⟨⟨res0, steps0⟩, hrec, hmap⟩ := hrun
              rw [hbsz] at hrec
              simp only [Prod.mk.injEq] at hmap
              obtain ⟨hres, hsteps⟩ := hmap
              have hinv : (some p = none ∨ ∃ qc, some p = some qc ∧
                  bsize (m qc) = b.size ∧ ts ≤ b.size ∧ b.size ≠ ts) :=
                Or.inr ⟨p, rfl, hbsz, htsle, hex⟩
              obtain ⟨hA, hB, hC⟩ := ih (p + b.size) (some p) b.size f res0 steps0
                hsegl hsent2 hgl hinv hrec
              refine ⟨?_, ?_, ?_⟩
              · intro h
                rw [← hres] at h
                exact absurd (hA h).1 (by simp)
              · intro q hq
                rw [← hres] at hq
                rcases hB q hq with ⟨hq1, hq2⟩ |
                  ⟨l1, c, l2, happ, hqpos, hc1, hc2, hc3, hc4, hc5, hc6⟩
                · have hqp : q = p := (Option.some_inj.mp hq1).symm
                  exact Or.inr (bestfit_here m ts p b l q
                    (fun c => (some qb : Option Int) = none ∨ c.size < bsz)
                    hqp halloc htsle hbsz (Or.inr hlt) hq2)
                · have hclt : c.size < b.size := hc4.resolve_left (by simp)
                  exact Or.inr (bestfit_lift m ts p b l l1 l2 c q
                    (fun c => (some qb : Option Int) = none ∨ c.size < bsz)
                    happ hqpos hc1 hc2 hc3 (Or.inr (lt_trans hclt hlt)) hc5 hc6
                    (fun _ _ => hclt))
              · have hPb : (fun c : Blk => !c.alloc && (c.size == ts)) b = false := by
                  simp [halloc, hex]
                rw [← hsteps]
                exact steps_shift _ b l hPb steps0 hC
          · rw [if_neg hlt0] at hrun
            dsimp only at hrun
            have hge : bsz ≤ b.size := by
              rw [← hbsz, ← hqbsz]; exact not_lt.mp hlt0
            have hne0 : bsize (m qb) ≠ ts := by rw [hqbsz]; exact hnebsz
            rw [if_neg hne0] at hrun
            rw [Option.map_eq_some'] at hrun
            obtain ⟨⟨res0, steps0⟩, hrec, hmap⟩ := hrun
            rw [hbsz] at hrec
            simp only [Prod.mk.injEq] at hmap
            obtain ⟨hres, hsteps⟩ := hmap
            have hinv : (some qb = none ∨ ∃ qc, some qb = some qc ∧
                bsize (m qc) = bsz ∧ ts ≤ bsz ∧ bsz ≠ ts) :=
              Or.inr ⟨qb, rfl, hqbsz, htsbsz, hnebsz⟩
            obtain ⟨hA, hB, hC⟩ := ih (p + b.size) (some qb) bsz f res0 steps0
              hsegl hsent2 hgl hinv hrec
            refine ⟨?_, ?_, ?_⟩
            · intro h
              rw [← hres] at h
              exact absurd (hA h).1 (by simp)
            · intro q hq
              rw [← hres] at hq
              rcases hB q hq with ⟨hq1, hq2⟩ |
                ⟨l1, c, l2, happ, hqpos, hc1, hc2, hc3, hc4, hc5, hc6⟩
              · refine Or.inl ⟨hq1, ?_⟩
                intro x hx
                rcases List.mem_cons.mp hx with rfl | hxl
                · intro _ _; exact hge
                · exact hq2 x hxl
              · have hclt : c.size < bsz := hc4.resolve_left (by simp)
                exact Or.inr (bestfit_lift m ts p b l l1 l2 c q
                  (fun c => (some qb : Option Int) = none ∨ c.size < bsz)
                  happ hqpos hc1 hc2 hc3 (Or.inr hclt) hc5 hc6
                  (fun _ _ => lt_of_lt_of_le hclt hge))
            · have hexb : b.size ≠ ts := by
                intro h
                exact hnebsz (by omega)
              have hPb : (fun c : Blk => !c.alloc && (c.size == ts)) b = false := by
                simp [halloc, hexb]
              rw [← hsteps]
              exact steps_shift _ b l hPb steps0 hC
      · -- the block does not qualify: the candidate is unchanged
        have hnq : ¬(b.alloc = false ∧ ts ≤ b.size) := by
          rintro ⟨h1, h2⟩
          exact hqual0 ⟨by rw [htm2, h1]; simp,
            by rw [hbsz]; exact le_trans hts4 h2⟩
        have hPb : (fun c : Blk => !c.alloc && (c.size == ts)) b = false := by
          cases hba : b.alloc
          · have hexb : b.size ≠ ts := by
              intro h
              exact hnq ⟨hba, by omega⟩
            simp [hba, hexb]
          · simp [hba]
        rw [if_neg hqual0] at hrun
        cases bO with
        | none =>
          dsimp only at hrun
          rw [Option.map_eq_some'] at hrun
          obtain ⟨⟨res0, steps0⟩, hrec, hmap⟩ := hrun
          rw [hbsz] at hrec
          simp only [Prod.mk.injEq] at hmap
          obtain ⟨hres, hsteps⟩ := hmap
          obtain ⟨hA, hB, hC⟩ := ih (p + b.size) none bsz f res0 steps0
            hsegl hsent2 hgl (Or.inl rfl) hrec
          refine ⟨?_, ?_, ?_⟩
          · intro h
            rw [← hres] at h
            refine ⟨rfl, ?_⟩
            intro x hx
            rcases List.mem_cons.mp hx with rfl | hxl
            · exact hnq
            · exact (hA h).2 x hxl
          · intro q hq
            rw [← hres] at hq
            rcases hB q hq with ⟨hq1, hq2⟩ |
              ⟨l1, c, l2, happ, hqpos, hc1, hc2, hc3, hc4, hc5, hc6⟩
            · cases hq1
            · refine Or.inr (bestfit_lift m ts p b l l1 l2 c q
                (fun c => (none : Option Int) = none ∨ c.size < bsz)
                happ hqpos hc1 hc2 hc3 hc4 hc5 hc6
                (fun h1 h2 => absurd ⟨h1, h2⟩ hnq))
          · rw [← hsteps]
            exact steps_shift _ b l hPb steps0 hC
        | some qb =>
          rcases hbO with h | ⟨qb2, hqb2, hqbsz, htsbsz, hnebsz⟩
          · cases h
          have hqbeq : qb2 = qb := Option.some_inj.mp hqb2.symm
          rw [hqbeq] at hqbsz
          dsimp only at hrun
          have hne0 : bsize (m qb) ≠ ts := by rw [hqbsz]; exact hnebsz
          rw [if_neg hne0] at hrun
          rw [Option.map_eq_some'] at hrun
          obtain ⟨⟨res0, steps0⟩, hrec, hmap⟩ := hrun
          rw [hbsz] at hrec
          simp only [Prod.mk.injEq] at hmap
          obtain ⟨hres, hsteps⟩ := hmap
          have hinv : (some qb = none ∨ ∃ qc, some qb = some qc ∧
              bsize (m qc) = bsz ∧ ts ≤ bsz ∧ bsz ≠ ts) :=
            Or.inr ⟨qb, rfl, hqbsz, htsbsz, hnebsz⟩
          obtain ⟨hA, hB, hC⟩ := ih (p + b.size) (some qb) bsz f res0 steps0
            hsegl hsent2 hgl hinv hrec
          refine ⟨?_, ?_, ?_⟩
          · intro h
            rw [← hres] at h
            exact absurd (hA h).1 (by simp)
          · intro q hq
            rw [← hres] at hq
            rcases hB q hq with ⟨hq1, hq2⟩ |
              ⟨l1, c, l2, happ, hqpos, hc1, hc2, hc3, hc4, hc5, hc6⟩
            · refine Or.inl ⟨hq1, ?_⟩
              intro x hx
              rcases List.mem_cons.mp hx with rfl | hxl
              · intro h1 h2; exact absurd ⟨h1, h2⟩ hnq
              · exact hq2 x hxl
            · refine Or.inr (bestfit_lift m ts p b l l1 l2 c q
                (fun c => (some qb : Option Int) = none ∨ c.size < bsz)
                happ hqpos hc1 hc2 hc3 hc4 hc5 hc6
                (fun h1 h2 => absurd ⟨h1, h2⟩ hnq))
          · rw [← hsteps]
            exact steps_shift _ b l hPb steps0 hC

theorem total_size_ge (n : Int) (hn : 0 < n) : n + 4 ≤ total_size n := by
  unfold total_size alloc_padding
  have htm : (n + 4).tmod 8 = (n + 4) % 8 :=
    Int.tmod_eq_emod (by omega) (by norm_num)
  have h1 : 0 ≤ (n + 4) % 8 := Int.emod_nonneg _ (by norm_num)
  have h2 : (n + 4) % 8 < 8 := Int.emod_lt_of_pos _ (by norm_num)
  split_ifs <;> omega

theorem total_size_min (n : Int) (hn : 0 < n) :
    ∀ sz : Int, 8 ∣ sz → n + 4 ≤ sz → total_size n ≤ sz := by
  intro sz hdvd hle
  obtain ⟨k, hk⟩ := hdvd
  unfold total_size alloc_padding
  have htm : (n + 4).tmod 8 = (n + 4) % 8 :=
    Int.tmod_eq_emod (by omega) (by norm_num)
  have h1 : 0 ≤ (n + 4) % 8 := Int.emod_nonneg _ (by norm_num)
  have h2 : (n + 4) % 8 < 8 := Int.emod_lt_of_pos _ (by norm_num)
  have hdef : (n + 4) % 8 = n + 4 - 8 * ((n + 4) / 8) := Int.emod_def _ _
  split_ifs with hz
  · omega
  · rw [htm] at hz ⊢
    omega

theorem total_size_dvd (n : Int) (hn : 0 < n) : 8 ∣ total_size n := by
  unfold total_size alloc_padding
  have htm : (n + 4).tmod 8 = (n + 4) % 8 :=
    Int.tmod_eq_emod (by omega) (by norm_num)
  have hdef : (n + 4) % 8 = n + 4 - 8 * ((n + 4) / 8) := Int.emod_def _ _
  split_ifs with hz
  · rw [htm] at hz
    exact ⟨(n + 4) / 8, by omega⟩
  · rw [htm]
    exact ⟨(n + 4) / 8 + 1, by omega⟩

theorem alloc_bf_success_inv (s : AllocState) (n : Int) (fuel : Nat) (a : Int)
    (s2 : AllocState)
    (h : alloc_bf s n fuel = some (some a, s2)) :
    ∃ steps, findBest s.mem n (total_size n) s.first_block none fuel
        = some (some (a - 4), steps) ∧
      s2 = { s with mem := allocPlace s.mem (a - 4) (total_size n) } ∧
      0 < n ∧ n ≤ s.totalallocation - 4 := by
  simp only [alloc_bf] at h
  split_ifs at h with h1 h2
  · simp at h
  · simp at h
  · rcases hfb : findBest s.mem n (total_size n) s.first_block none fuel
      with _ | ⟨ob, st⟩
    · rw [hfb] at h; cases h
    · rw [hfb] at h
      cases ob with
      | none => simp at h
      | some best =>
        simp only [Option.some.injEq, Prod.mk.injEq] at h
        obtain ⟨hba, hs2⟩ := h
        have hbesta : best = a - 4 := by omega
        rw [hbesta] at hs2
        refine ⟨st, ?_, hs2.symm, by omega, by omega⟩
        rw [hbesta]

/-- C2: when `alloc_bf n` succeeds on a heap representing the block list `l`,
the chosen block (the one whose payload address is returned) is a free block
whose size is at least `total_size n = roundUp(n + 4, 8)`, its size is
minimal among all free blocks of the list that are at least that large, every
such block strictly before it in the list is strictly larger (so among
equal-size candidates the first encountered -- the lowest address -- wins),
and the scan-loop iteration count shows the loop stopped early exactly when
an exact-size candidate exists: at the first free block of size exactly
`total_size n`, and otherwise only at the end mark. -/
theorem alloc_best_fit (s : AllocState) (n : Int) (fuel : Nat)
    (l : List Blk) (a : Int) (s2 : AllocState)
    (hrepr : reprB s.mem s.first_block l)
    (hg : goodSizes l)
    (hsucc : alloc_bf s n fuel = some (some a, s2)) :
    (∃ l1 c l2, l = l1 ++ c :: l2 ∧
      a - 4 = s.first_block + sumSizes l1 ∧
      c.alloc = false ∧ total_size n ≤ c.size ∧
      (∀ b ∈ l, b.alloc = false → total_size n ≤ b.size → c.size ≤ b.size) ∧
      (∀ b ∈ l1, b.alloc = false → total_size n ≤ b.size → c.size < b.size)) ∧
    (∀ st, findBest s.mem n (total_size n) s.first_block none fuel
        = some (some (a - 4), st) →
      st = if l.any (fun b => !b.alloc && (b.size == total_size n))
        then (l.findIdx fun b => !b.alloc && (b.size == total_size n)) + 1
        else l.length) := by
  obtain ⟨hseg, hsent⟩ := hrepr
  obtain ⟨st0, hfb, hs2, hn, hcap⟩ := alloc_bf_success_inv s n fuel a s2 hsucc
  have hts4 : n + 4 ≤ total_size n := total_size_ge n hn
  have htsmin := total_size_min n hn
  obtain ⟨hA, hB, hC⟩ := findBest_go s.mem n (total_size n) hts4 htsmin l
    s.first_block none 0 fuel (some (a - 4)) st0 hseg hsent hg (Or.inl rfl) hfb
  constructor
  · rcases hB (a - 4) rfl with ⟨h1, -⟩ |
      ⟨l1, c, l2, happ, hqpos, hc1, hc2, hc3, hc4, hc5, hc6⟩
    · cases h1
    · exact ⟨l1, c, l2, happ, hqpos, hc1, hc2, hc5, hc6⟩
  · intro st hfb2
    have hst : st0 = st := by
      have := Option.some_inj.mp (hfb.symm.trans hfb2)
      exact (Prod.mk.injEq _ _ _ _ ▸ this).2
    rw [← hst]
    exact hC

def c2s : AllocState :=
  { mem := (initRegion ⟨fun _ => 0, 0, 0, false⟩ 4096 4096 true (some 8192)).2.mem,
    first_block := 8196, totalallocation := 4096, done := true }

def c2s2 : AllocState := ((alloc_bf c2s 100 600).getD (none, c2s)).2

/-- Witness for C2 at a concrete heap with one free 4088-byte block:
`alloc_bf 100` succeeds and places the allocation in that block. -/
theorem alloc_best_fit_witness :
    ∃ l1 c l2, ([⟨4088, false, true⟩] : List Blk) = l1 ++ c :: l2 ∧
      (8200 : Int) - 4 = c2s.first_block + sumSizes l1 ∧
      c.alloc = false ∧ total_size 100 ≤ c.size ∧
      (∀ b ∈ ([⟨4088, false, true⟩] : List Blk), b.alloc = false →
        total_size 100 ≤ b.size → c.size ≤ b.size) ∧
      (∀ b ∈ l1, b.alloc = false → total_size 100 ≤ b.size → c.size < b.size) :=
  (alloc_best_fit c2s 100 600 [⟨4088, false, true⟩] 8200 c2s2
    (by exact ⟨by decide, by decide⟩) (by decide) (by rfl)).1

/-!
Claim C3: the placement phase of `alloc_bf` -- split versus exact fit.
-/

theorem pchain_adj (l1 : List Blk) (pa : Bool) (c d : Blk) (l2 : List Blk)
    (h : pchain pa (l1 ++ c :: d :: l2) = true) : d.pbit = c.alloc := by
  induction l1 generalizing pa with
  | nil =>
    simp only [List.nil_append, pchain, Bool.and_eq_true, beq_iff_eq] at h
    exact h.2.1
  | cons x l1 ih =>
    simp only [List.cons_append, pchain, Bool.and_eq_true] at h
    exact ih x.alloc h.2

theorem encodeB_allocate (c : Blk) (hc : goodB c) (ha : c.alloc = false)
    (ts : Int) : 1 + (encodeB c).tmod 8 + ts = encodeB ⟨ts, true, c.pbit⟩ := by
  rw [encodeB_tmod8 c hc, ha]
  cases hp : c.pbit <;> simp [encodeB, hp] <;> ring

theorem allocPlace_split (m : Mem) (q ts csize : Int)
    (hc3 : bsize (m q) = csize)
    (hdvd : 8 ∣ csize - ts) (hsp : 8 ≤ csize - ts) (hts0 : 0 < ts) :
    allocPlace m q ts =
      mwrite (mwrite (mwrite m (q + ts) (csize - ts + 2))
        (q + csize - 4) (csize - ts))
        q (1 + (m q).tmod 8 + ts) := by
  unfold allocPlace
  rw [if_pos (by rw [hc3]; exact hsp), hc3]
  dsimp only
  rw [mwrite_same]
  rw [show bsize (csize - ts + 2) = csize - ts from
    bsize_add_bits _ _ (by omega) hdvd (by norm_num) (by norm_num)]
  rw [show q + ts + (csize - ts) - 4 = q + csize - 4 by ring]
  rw [show csize - ts + 2 - 2 = csize - ts by ring]
  rw [mwrite_ne _ _ _ _ (show (q : Int) ≠ q + csize - 4 by omega),
    mwrite_ne _ _ _ _ (show (q : Int) ≠ q + ts by omega)]

theorem allocPlace_exact (m : Mem) (q ts csize : Int)
    (hc3 : bsize (m q) = csize) (hsp : ¬ 8 ≤ csize - ts) (hcs0 : 0 < csize) :
    allocPlace m q ts =
      if m (q + csize) = 1
      then mwrite m q (1 + (m q).tmod 8 + ts)
      else mwrite (mwrite m (q + csize) (m (q + csize) + 2)) q
             (1 + (m q).tmod 8 + ts) := by
  unfold allocPlace
  rw [if_neg (by rw [hc3]; exact hsp), hc3]
  by_cases hend : m (q + csize) = 1
  · rw [if_neg (by simp [hend]), if_pos hend]
  · rw [if_pos (by simp [hend]), if_neg hend]
    dsimp only
    rw [mwrite_ne _ _ _ _ (show (q : Int) ≠ q + csize by omega)]

/-- C3: when `alloc_bf n` succeeds, choosing the free block `c` at header
address `a - 4`: if `c.size - total_size n >= 8` the leading `total_size n`
bytes become the allocated block (header: allocated = true, size
`total_size n`, p-bit preserved) and the tail becomes a free block whose
header has prevAllocated = true and which carries a matching footer; if not,
the difference is in fact 0 (sizes are multiples of 8), the whole candidate
becomes the allocated block, and the following block's header -- unless it
is the end mark -- is incremented by 2, setting its prevAllocated bit (its
p-bit was clear, by the p-bit chain invariant).  Nothing else is written. -/
theorem alloc_split_rule (s : AllocState) (n : Int) (fuel : Nat)
    (l : List Blk) (a : Int) (s2 : AllocState)
    (hrepr : reprB s.mem s.first_block l)
    (hg : goodSizes l)
    (hpc : pchain true l = true)
    (hsucc : alloc_bf s n fuel = some (some a, s2)) :
    ∃ l1 c l2, l = l1 ++ c :: l2 ∧
      a - 4 = s.first_block + sumSizes l1 ∧
      c.alloc = false ∧ total_size n ≤ c.size ∧
      (8 ≤ c.size - total_size n →
        s2.mem (a - 4) = encodeB ⟨total_size n, true, c.pbit⟩ ∧
        s2.mem (a - 4 + total_size n)
          = encodeB ⟨c.size - total_size n, false, true⟩ ∧
        s2.mem (a - 4 + c.size - 4) = c.size - total_size n ∧
        (∀ x, x ≠ a - 4 → x ≠ a - 4 + total_size n →
          x ≠ a - 4 + c.size - 4 → s2.mem x = s.mem x)) ∧
      (c.size - total_size n < 8 →
        c.size = total_size n ∧
        s2.mem (a - 4) = encodeB ⟨total_size n, true, c.pbit⟩ ∧
        ((l2 = [] ∧ s.mem (a - 4 + c.size) = 1 ∧
           (∀ x, x ≠ a - 4 → s2.mem x = s.mem x)) ∨
         (∃ d l2a, l2 = d :: l2a ∧ d.pbit = false ∧
           s2.mem (a - 4 + c.size) = encodeB ⟨d.size, d.alloc, true⟩ ∧
           (∀ x, x ≠ a - 4 → x ≠ a - 4 + c.size → s2.mem x = s.mem x)))) := by
  obtain ⟨hseg, hsent⟩ := hrepr
  obtain ⟨st0, hfb, hs2, hn, hcap⟩ := alloc_bf_success_inv s n fuel a s2 hsucc
  have hts4 : n + 4 ≤ total_size n := total_size_ge n hn
  have htsdvd : (8 : Int) ∣ total_size n := total_size_dvd n hn
  have hts8 : 8 ≤ total_size n := by
    obtain ⟨k, hk⟩ := htsdvd
    omega
  obtain ⟨hA, hB, hC⟩ := findBest_go s.mem n (total_size n) hts4
    (total_size_min n hn) l s.first_block none 0 fuel (some (a - 4)) st0
    hseg hsent hg (Or.inl rfl) hfb
  rcases hB (a - 4) rfl with ⟨h1, -⟩ |
    ⟨l1, c, l2, happ, hqpos, hc1, hc2, hc3, -, -, -⟩
  · cases h1
  have hgc : goodB c := by
    have := hg c (by rw [happ]; simp)
    exact this
  have hgdvd : (8 : Int) ∣ c.size - total_size n := dvd_sub hgc.2 htsdvd
  rw [happ] at hseg
  rw [seg_append] at hseg
  obtain ⟨hseg1, hseg2⟩ := hseg
  rw [← hqpos] at hseg2
  rw [seg_cons_iff] at hseg2
  obtain ⟨hmq, hftq, hseg3⟩ := hseg2
  have hsentpos : s.first_block + sumSizes l
      = a - 4 + c.size + sumSizes l2 := by
    rw [happ, sumSizes_append]
    simp only [sumSizes]
    rw [hqpos]
    ring
  rw [hsentpos] at hsent
  have hhdr : 1 + (s.mem (a - 4)).tmod 8 + total_size n
      = encodeB ⟨total_size n, true, c.pbit⟩ := by
    rw [hmq]
    exact encodeB_allocate c hgc hc1 (total_size n)
  refine ⟨l1, c, l2, happ, hqpos, hc1, hc2, ?_, ?_⟩
  · -- split case
    intro hsp
    rw [hs2]
    simp only
    rw [allocPlace_split s.mem (a - 4) (total_size n) c.size hc3 hgdvd hsp
      (by omega)]
    have hd1 : (a - 4 : Int) ≠ a - 4 + total_size n := by omega
    have hd2 : (a - 4 : Int) ≠ a - 4 + c.size - 4 := by
      have := hgc.1
      omega
    have hd3 : (a - 4 + total_size n : Int) ≠ a - 4 + c.size - 4 := by omega
    refine ⟨?_, ?_, ?_, ?_⟩
    · rw [mwrite_same, hhdr]
    · rw [mwrite_ne _ _ _ _ hd1.symm, mwrite_ne _ _ _ _ hd3, mwrite_same]
      simp [encodeB]
    · rw [mwrite_ne _ _ _ _ hd2.symm, mwrite_same]
    · intro x hx1 hx2 hx3
      rw [mwrite_ne _ _ _ _ hx1, mwrite_ne _ _ _ _ hx3, mwrite_ne _ _ _ _ hx2]
  · -- exact-fit case
    intro hsp
    have hceq : c.size = total_size n := by
      obtain ⟨k1, hk1⟩ := hgc.2
      obtain ⟨k2, hk2⟩ := htsdvd
      omega
    rw [hs2]
    simp only
    rw [allocPlace_exact s.mem (a - 4) (total_size n) c.size hc3 (by omega)
      (by have := hgc.1; omega)]
    refine ⟨hceq, ?_, ?_⟩
    · by_cases hend : s.mem (a - 4 + c.size) = 1
      · rw [if_pos hend, mwrite_same, hhdr]
      · rw [if_neg hend, mwrite_same, hhdr]
    · cases l2 with
      | nil =>
        rw [show sumSizes [] = 0 from rfl, add_zero] at hsent
        refine Or.inl ⟨rfl, hsent, ?_⟩
        intro x hx
        rw [if_pos hsent, mwrite_ne _ _ _ _ hx]
      | cons d l2a =>
        rw [seg_cons_iff] at hseg3
        obtain ⟨hmd, -, -⟩ := hseg3
        have hgd : goodB d := by
          have := hg d (by rw [happ]; simp)
          exact this
        have hdne : s.mem (a - 4 + c.size) ≠ 1 := by
          rw [hmd]; exact encodeB_ne_one d hgd
        have hdp : d.pbit = false := by
          have := pchain_adj l1 true c d l2a (by rw [← happ]; exact hpc)
          rw [hc1] at this
          exact this
        have hd0 : (a - 4 + c.size : Int) ≠ a - 4 := by
          have := hgc.1
          omega
        refine Or.inr ⟨d, l2a, rfl, hdp, ?_, ?_⟩
        · rw [if_neg hdne, mwrite_ne _ _ _ _ hd0, mwrite_same, hmd,
            encodeB_add_two d hdp]
        · intro x hx1 hx2
          rw [if_neg hdne, mwrite_ne _ _ _ _ hx1, mwrite_ne _ _ _ _ hx2]

/-- Witness for C3 at the same concrete heap as C2: allocating 100 bytes
from the single 4088-byte free block splits it. -/
theorem alloc_split_rule_witness :
    ∃ l1 c l2, ([⟨4088, false, true⟩] : List Blk) = l1 ++ c :: l2 ∧
      (8200 : Int) - 4 = c2s.first_block + sumSizes l1 ∧
      c.alloc = false ∧ total_size 100 ≤ c.size ∧
      (8 ≤ c.size - total_size 100 →
        c2s2.mem (8200 - 4) = encodeB ⟨total_size 100, true, c.pbit⟩ ∧
        c2s2.mem (8200 - 4 + total_size 100)
          = encodeB ⟨c.size - total_size 100, false, true⟩ ∧
        c2s2.mem (8200 - 4 + c.size - 4) = c.size - total_size 100 ∧
        (∀ x, x ≠ 8200 - 4 → x ≠ 8200 - 4 + total_size 100 →
          x ≠ 8200 - 4 + c.size - 4 → c2s2.mem x = c2s.mem x)) ∧
      (c.size - total_size 100 < 8 →
        c.size = total_size 100 ∧
        c2s2.mem (8200 - 4) = encodeB ⟨total_size 100, true, c.pbit⟩ ∧
        ((l2 = [] ∧ c2s.mem (8200 - 4 + c.size) = 1 ∧
           (∀ x, x ≠ 8200 - 4 → c2s2.mem x = c2s.mem x)) ∨
         (∃ d l2a, l2 = d :: l2a ∧ d.pbit = false ∧
           c2s2.mem (8200 - 4 + c.size) = encodeB ⟨d.size, d.alloc, true⟩ ∧
           (∀ x, x ≠ 8200 - 4 → x ≠ 8200 - 4 + c.size →
             c2s2.mem x = c2s.mem x)))) :=
  alloc_split_rule c2s 100 600 [⟨4088, false, true⟩] 8200 c2s2
    (by exact ⟨by decide, by decide⟩) (by decide) (by decide) (by rfl)

/-!
Claims C7, C8, C10: the coalescing pass.  We first develop the block-list
level theory: `cpass` (defined above) replays the loop on lists, `mr` merges
maximal runs of free blocks, and the two agree whenever the p-bit chain is
accurate.
-/

/-- Allocated status of the most recently passed block (`pre` is kept in
reverse order), or `true` before the first block. -/
def paOf : List Blk → Bool
  | [] => true
  | q :: _ => q.alloc

/-- Allocated status of the last block of a list, or `pa` for the empty
list. -/
def chainTail : Bool → List Blk → Bool
  | pa, [] => pa
  | _, b :: l => chainTail b.alloc l

/-- Merge a free block `b` into the front of a list, absorbing the head when
it is free. -/
def mergeHead (b : Blk) : List Blk → List Blk
  | [] => [b]
  | d :: l => if d.alloc then b :: d :: l else ⟨b.size + d.size, false, b.pbit⟩ :: l

/-- Reattach the processed prefix (in reverse order) to an output list,
merging at the boundary when both sides are free. -/
def glue : List Blk → List Blk → List Blk
  | q :: pre2, c :: out2 =>
    if q.alloc = false ∧ c.alloc = false
    then pre2.reverse ++ (⟨q.size + c.size, false, q.pbit⟩ :: out2)
    else (q :: pre2).reverse ++ (c :: out2)
  | pre, out => pre.reverse ++ out

theorem chainTail_append (pa : Bool) (xs ys : List Blk) :
    chainTail pa (xs ++ ys) = chainTail (chainTail pa xs) ys := by
  induction xs generalizing pa with
  | nil => rfl
  | cons b l ih => simp [chainTail, ih]

theorem pchain_append (pa : Bool) (xs ys : List Blk) :
    pchain pa (xs ++ ys) = (pchain pa xs && pchain (chainTail pa xs) ys) := by
  induction xs generalizing pa with
  | nil => simp [pchain, chainTail]
  | cons b l ih => simp [pchain, chainTail, ih, Bool.and_assoc]

theorem chainTail_reverse_cons (pa : Bool) (q : Blk) (l : List Blk) :
    chainTail pa ((q :: l).reverse) = q.alloc := by
  rw [List.reverse_cons, chainTail_append]
  rfl

theorem mr_cons (b : Blk) (l : List Blk) :
    mr (b :: l) = if b.alloc then b :: mr l else mergeHead b (mr l) := by
  cases hba : b.alloc
  · simp only [mr, hba, if_false]
    cases hml : mr l with
    | nil => rfl
    | cons c l2 => simp [mergeHead]
  · simp [mr, hba]

theorem mergeHead_assoc (b c : Blk) (hc : c.alloc = false) (M : List Blk) :
    mergeHead b (mergeHead c M) = mergeHead ⟨b.size + c.size, false, b.pbit⟩ M := by
  cases M with
  | nil => simp [mergeHead, hc]
  | cons d l =>
    cases hd : d.alloc
    · simp [mergeHead, hc, hd]
      ring
    · simp [mergeHead, hc, hd]

theorem glue_alloc (pre : List Blk) (b : Blk) (hb : b.alloc = true)
    (X : List Blk) : glue (b :: pre) X = glue pre (b :: X) := by
  cases X with
  | nil =>
    cases pre with
    | nil => simp [glue, hb]
    | cons q pre2 => simp [glue, hb]
  | cons x X2 =>
    cases pre with
    | nil => simp [glue, hb]
    | cons q pre2 => simp [glue, hb]

theorem glue_merge (pre : List Blk) (b : Blk) (hb : b.alloc = false)
    (hlink : b.pbit = paOf pre) (X : List Blk) :
    glue (bmerge pre b) X = glue pre (mergeHead b X) := by
  cases pre with
  | nil =>
    have hp : b.pbit = true := hlink
    rw [bmerge, if_neg (by rw [hp]; simp)]
    cases X with
    | nil => simp [glue, mergeHead]
    | cons x X2 =>
      cases hx : x.alloc
      · simp [glue, mergeHead, hb, hx]
      · simp [glue, mergeHead, hb, hx]
  | cons q pre2 =>
    have hp : b.pbit = q.alloc := hlink
    cases hq : q.alloc
    · -- the previous block is free: backward merge
      rw [bmerge, if_pos (by rw [hp, hq])]
      cases X with
      | nil => simp [glue, mergeHead, hq, hb]
      | cons x X2 =>
        cases hx : x.alloc
        · simp [glue, mergeHead, hb, hx, hq]
          ring
        · simp [glue, mergeHead, hb, hx, hq]
    · -- the previous block is allocated: push
      rw [bmerge, if_neg (by rw [hp, hq]; simp)]
      cases X with
      | nil => simp [glue, mergeHead, hq, hb]
      | cons x X2 =>
        cases hx : x.alloc
        · simp [glue, mergeHead, hb, hx, hq]
        · simp [glue, mergeHead, hb, hx, hq]

theorem glue_nil (pre : List Blk) : glue pre [] = pre.reverse := by
  cases pre <;> simp [glue]

theorem paOf_bmerge (pre : List Blk) (b1 : Blk) (hb : b1.alloc = false)
    (hlink : b1.pbit = paOf pre) : paOf (bmerge pre b1) = false := by
  unfold bmerge
  split_ifs with hp
  · cases pre with
    | nil => simp [paOf, hb]
    | cons q pre2 =>
      have hqa : q.alloc = false := by
        have hl2 : b1.pbit = q.alloc := hlink
        rw [← hl2]; exact hp
      simp [paOf, hqa]
  · simp [paOf, hb]

theorem mr_one (b : Blk) : mr [b] = [b] := by
  rw [mr_cons]
  cases b.alloc <;> simp [mr, mergeHead]

theorem cpass_glue : ∀ (n : Nat) (rest pre : List Blk), rest.length ≤ n →
    pchain (paOf pre) rest = true → cpass pre rest = glue pre (mr rest) := by
  intro n
  induction n with
  | zero =>
    intro rest pre hlen hpc
    rcases rest with _ | ⟨b, rest1⟩
    · rw [show mr [] = [] from rfl, glue_nil]; rfl
    · simp at hlen
  | succ n ih =>
    intro rest pre hlen hpc
    rcases rest with _ | ⟨b, _ | ⟨c, rest2⟩⟩
    · rw [show mr [] = [] from rfl, glue_nil]; rfl
    · -- a single block before the end mark
      have hlink : b.pbit = paOf pre := by
        simp [pchain] at hpc
        exact hpc
      rw [mr_one]
      cases hba : b.alloc
      · show (if b.alloc = true then (b :: pre).reverse
          else (bmerge pre b).reverse) = glue pre [b]
        rw [hba, if_neg (by simp)]
        rw [show ([b] : List Blk) = mergeHead b [] from rfl,
          ← glue_merge pre b hba hlink, glue_nil]
      · show (if b.alloc = true then (b :: pre).reverse
          else (bmerge pre b).reverse) = glue pre [b]
        rw [hba, if_pos rfl]
        rw [← glue_alloc pre b hba [], glue_nil]
    · simp only [pchain, Bool.and_eq_true, beq_iff_eq] at hpc
      obtain ⟨h1, h2, h3⟩ := hpc
      have hlen2 : rest2.length + 1 ≤ n := by simp at hlen; omega
      cases hba : b.alloc
      · cases hca : c.alloc
        · -- both free: forward merge at the list level
          show (if b.alloc = true then cpass (b :: pre) (c :: rest2)
            else if c.alloc = false then
              cpass (bmerge pre ⟨b.size + c.size, false, b.pbit⟩) rest2
            else cpass (bmerge pre b) (c :: rest2)) = _
          rw [hba, if_neg (by simp), if_pos hca]
          have hrec := ih rest2 (bmerge pre ⟨b.size + c.size, false, b.pbit⟩)
            (by omega)
            (by rw [paOf_bmerge pre ⟨b.size + c.size, false, b.pbit⟩ rfl h1]
                rw [← hca]; exact h3)
          rw [hrec, glue_merge pre ⟨b.size + c.size, false, b.pbit⟩ rfl h1]
          rw [show mr (b :: c :: rest2)
              = mergeHead ⟨b.size + c.size, false, b.pbit⟩ (mr rest2) from by
            rw [mr_cons, hba]
            simp only [Bool.false_eq_true, if_false]
            rw [mr_cons, hca]
            simp only [Bool.false_eq_true, if_false]
            exact mergeHead_assoc b c hca (mr rest2)]
        · -- b free, next allocated: only a possible backward merge
          show (if b.alloc = true then cpass (b :: pre) (c :: rest2)
            else if c.alloc = false then
              cpass (bmerge pre ⟨b.size + c.size, false, b.pbit⟩) rest2
            else cpass (bmerge pre b) (c :: rest2)) = _
          rw [hba, if_neg (by simp), if_neg (by simp [hca])]
          have hrec := ih (c :: rest2) (bmerge pre b)
            (by simp only [List.length_cons]; simp at hlen; omega)
            (by rw [paOf_bmerge pre b hba h1]
                simp only [pchain, Bool.and_eq_true, beq_iff_eq]
                exact ⟨by rw [h2, hba], h3⟩)
          rw [hrec, glue_merge pre b hba h1]
          rw [show mr (b :: c :: rest2) = mergeHead b (mr (c :: rest2)) from by
            rw [mr_cons, hba]
            simp only [Bool.false_eq_true, if_false]]
      · -- b allocated: push it and continue
        show (if b.alloc = true then cpass (b :: pre) (c :: rest2)
          else if c.alloc = false then
            cpass (bmerge pre ⟨b.size + c.size, false, b.pbit⟩) rest2
          else cpass (bmerge pre b) (c :: rest2)) = _
        rw [hba, if_pos rfl]
        have hrec := ih (c :: rest2) (b :: pre)
          (by simp only [List.length_cons]; simp at hlen; omega)
          (by show pchain (paOf (b :: pre)) (c :: rest2) = true
              have hpb : paOf (b :: pre) = true := hba
              rw [hpb]
              simp only [pchain, Bool.and_eq_true, beq_iff_eq]
              exact ⟨by rw [h2, hba], h3⟩)
        rw [hrec, glue_alloc pre b hba]
        rw [show mr (b :: c :: rest2) = b :: mr (c :: rest2) from by
          rw [mr_cons, hba]
          simp only [if_true]]

theorem noAdjFree_cons (b : Blk) (l : List Blk) :
    noAdjFree (b :: l) = true ↔
      noAdjFree l = true ∧
      (∀ c, l.head? = some c → (b.alloc || c.alloc) = true) := by
  cases l with
  | nil => simp [noAdjFree]
  | cons c l2 =>
    simp only [noAdjFree, Bool.and_eq_true, List.head?_cons, Option.some.injEq]
    constructor
    · rintro ⟨h1, h2⟩
      exact ⟨h2, fun x hx => hx ▸ h1⟩
    · rintro ⟨h1, h2⟩
      exact ⟨h2 c rfl, h1⟩

theorem bool_ff : ¬((false : Bool) = true) := by decide

theorem mergeHead_allocHead (b d : Blk) (l : List Blk) (hd : d.alloc = true) :
    mergeHead b (d :: l) = b :: d :: l := by
  simp [mergeHead, hd]

theorem mergeHead_freeHead (b d : Blk) (l : List Blk) (hd : d.alloc = false) :
    mergeHead b (d :: l) = ⟨b.size + d.size, false, b.pbit⟩ :: l := by
  simp [mergeHead, hd]

theorem mr_noAdjFree (l : List Blk) : noAdjFree (mr l) = true := by
  induction l with
  | nil => simp [mr, noAdjFree]
  | cons b l ih =>
    rw [mr_cons]
    cases hba : b.alloc
    · rw [if_neg bool_ff]
      cases hml : mr l with
      | nil => simp [mergeHead, noAdjFree]
      | cons d l2 =>
        rw [hml] at ih
        rw [noAdjFree_cons] at ih
        cases hda : d.alloc
        · rw [mergeHead_freeHead b d l2 hda, noAdjFree_cons]
          refine ⟨ih.1, ?_⟩
          intro x hx
          have h2 := ih.2 x hx
          simp [hda] at h2
          simp [h2]
        · rw [mergeHead_allocHead b d l2 hda, noAdjFree_cons]
          refine ⟨by rw [noAdjFree_cons]; exact ih, ?_⟩
          intro x hx
          simp at hx
          subst hx
          simp [hda]
    · rw [if_pos rfl, noAdjFree_cons]
      refine ⟨ih, ?_⟩
      intro c hc
      simp [hba]

theorem mr_pchain (l : List Blk) : ∀ pa, pchain pa l = true →
    pchain pa (mr l) = true := by
  induction l with
  | nil => intro pa h; exact h
  | cons b l ih =>
    intro pa h
    simp only [pchain, Bool.and_eq_true, beq_iff_eq] at h
    obtain ⟨h1, h2⟩ := h
    rw [mr_cons]
    cases hba : b.alloc
    · rw [if_neg bool_ff]
      have ih2 := ih b.alloc h2
      rw [hba] at ih2
      cases hml : mr l with
      | nil => simp [mergeHead, pchain, h1]
      | cons d l2 =>
        rw [hml] at ih2
        simp only [pchain, Bool.and_eq_true, beq_iff_eq] at ih2
        obtain ⟨hd1, hd2⟩ := ih2
        cases hda : d.alloc
        · rw [mergeHead_freeHead b d l2 hda]
          simp only [pchain, Bool.and_eq_true, beq_iff_eq]
          rw [hda] at hd2
          exact ⟨h1, hd2⟩
        · rw [mergeHead_allocHead b d l2 hda]
          simp only [pchain, Bool.and_eq_true, beq_iff_eq]
          exact ⟨h1, by rw [hba]; exact hd1, hd2⟩
    · rw [if_pos rfl]
      simp only [pchain, Bool.and_eq_true, beq_iff_eq]
      exact ⟨h1, ih b.alloc h2⟩

theorem mr_sum (l : List Blk) : sumSizes (mr l) = sumSizes l := by
  induction l with
  | nil => rfl
  | cons b l ih =>
    rw [mr_cons]
    cases hba : b.alloc
    · rw [if_neg bool_ff]
      cases hml : mr l with
      | nil =>
        rw [hml] at ih
        simp [mergeHead, sumSizes, ← ih]
      | cons d l2 =>
        rw [hml] at ih
        cases hda : d.alloc
        · rw [mergeHead_freeHead b d l2 hda]
          simp only [sumSizes] at ih ⊢
          omega
        · rw [mergeHead_allocHead b d l2 hda]
          simp only [sumSizes] at ih ⊢
          omega
    · rw [if_pos rfl]
      simp only [sumSizes]
      omega

theorem mr_good (l : List Blk) (h : goodSizes l) : goodSizes (mr l) := by
  induction l with
  | nil => exact h
  | cons b l ih =>
    rw [goodSizes_cons] at h
    obtain ⟨hb, hl⟩ := h
    have ihl := ih hl
    rw [mr_cons]
    cases hba : b.alloc
    · rw [if_neg bool_ff]
      cases hml : mr l with
      | nil =>
        intro x hx
        simp [mergeHead] at hx
        rw [hx]
        exact hb
      | cons d l2 =>
        rw [hml] at ihl
        have hd : goodB d := ihl d (by simp)
        cases hda : d.alloc
        · rw [mergeHead_freeHead b d l2 hda]
          intro x hx
          rcases List.mem_cons.mp hx with rfl | hx2
          · constructor
            · have := hb.1
              have := hd.1
              simp
              omega
            · simp
              exact dvd_add hb.2 hd.2
          · exact ihl x (by simp [hx2])
        · rw [mergeHead_allocHead b d l2 hda]
          intro x hx
          rcases List.mem_cons.mp hx with rfl | hx2
          · exact hb
          · exact ihl x hx2
    · rw [if_pos rfl]
      intro x hx
      rcases List.mem_cons.mp hx with rfl | hx2
      · exact hb
      · exact ihl x hx2

theorem mr_length_le (l : List Blk) : (mr l).length ≤ l.length := by
  induction l with
  | nil => simp [mr]
  | cons b l ih =>
    rw [mr_cons]
    cases hba : b.alloc
    · rw [if_neg bool_ff]
      cases hml : mr l with
      | nil => simp [mergeHead]
      | cons d l2 =>
        rw [hml] at ih
        cases hda : d.alloc
        · rw [mergeHead_freeHead b d l2 hda]
          simp at ih ⊢
          omega
        · rw [mergeHead_allocHead b d l2 hda]
          simp at ih ⊢
          omega
    · rw [if_pos rfl]
      simp
      omega

/-- When no two adjacent blocks are free and the p-bit chain is accurate,
the coalescing loop writes nothing at all. -/
theorem coalesceLoop_noop :
    ∀ (l : List Blk) (m : Mem) (p : Int) (pa : Bool) (fuel : Nat),
    l.length < fuel →
    seg m p l = true → m (p + sumSizes l) = 1 → goodSizes l →
    noAdjFree l = true → pchain pa l = true →
    (∀ b, l.head? = some b → b.alloc = false → pa = true) →
    coalesceLoop m p fuel = some m := by
  intro l
  induction l with
  | nil =>
    intro m p pa fuel hf hseg hsent hg hadj hpc hhead
    cases fuel with
    | zero => simp at hf
    | succ f =>
      have hmp : m p = 1 := by
        have := hsent
        rw [show sumSizes [] = 0 from rfl, add_zero] at this
        exact this
      simp [coalesceLoop, hmp]
  | cons b l ih =>
    intro m p pa fuel hf hseg hsent hg hadj hpc hhead
    cases fuel with
    | zero => simp at hf
    | succ f =>
      rw [seg_cons_iff] at hseg
      obtain ⟨hmp, hft, hsegl⟩ := hseg
      rw [goodSizes_cons] at hg
      obtain ⟨hgb, hgl⟩ := hg
      simp only [pchain, Bool.and_eq_true, beq_iff_eq] at hpc
      obtain ⟨hpb, hpc2⟩ := hpc
      have hsent2 : m (p + b.size + sumSizes l) = 1 := by
        have h : p + b.size + sumSizes l = p + sumSizes (b :: l) := by
          simp [sumSizes]; ring
        rw [h]; exact hsent
      have hne1 : m p ≠ 1 := by rw [hmp]; exact encodeB_ne_one b hgb
      have hbsz : bsize (m p) = b.size := by rw [hmp]; exact bsize_encodeB b hgb
      have hf2 : l.length < f := by simp at hf; omega
      rw [noAdjFree_cons] at hadj
      simp only [coalesceLoop]
      rw [if_neg hne1]
      rw [hbsz]
      cases hba : b.alloc
      · -- a free block: neither merge can fire
        have hpbt : b.pbit = true := by rw [hpb, hhead b rfl hba]
        have htm : (m p).tmod 2 = 0 := by
          rw [hmp, encodeB_tmod2 b hgb, hba]
          decide
        have htm8 : (m p).tmod 8 = 2 := by
          rw [hmp, encodeB_tmod8 b hgb, hba, hpbt]
          decide
        rw [if_pos htm]
        have hnomerge : ¬(m (p + b.size) ≠ 1 ∧ (m (p + b.size)).tmod 2 = 0) := by
          cases l with
          | nil =>
            have h1 : m (p + b.size) = 1 := by
              have := hsent2
              rw [show sumSizes [] = 0 from rfl, add_zero] at this
              exact this
            simp [h1]
          | cons c l2 =>
            rw [seg_cons_iff] at hsegl
            obtain ⟨hmc, -, -⟩ := hsegl
            have hgc : goodB c := (goodSizes_cons c l2).mp hgl |>.1
            have hca : c.alloc = true := by
              have := hadj.2 c rfl
              rw [hba] at this
              simpa using this
            have : (m (p + b.size)).tmod 2 = 1 := by
              rw [hmc, encodeB_tmod2 c hgc, hca]
              decide
            intro hcon
            rw [this] at hcon
            norm_num at hcon
        rw [if_neg hnomerge, if_neg (by rw [htm8]; norm_num), hbsz]
        exact ih m (p + b.size) b.alloc f hf2 hsegl hsent2 hgl hadj.1 hpc2
          (by intro c hc hcalloc
              cases l with
              | nil => cases hc
              | cons c2 l2 =>
                simp at hc
                have h2 := hadj.2 c2 rfl
                rw [hba, hc, hcalloc] at h2
                simpa using h2)
      · -- an allocated block: skipped outright
        have htm : (m p).tmod 2 = 1 := by
          rw [hmp, encodeB_tmod2 b hgb, hba]
          decide
        rw [if_neg (by rw [htm]; norm_num), hbsz]
        exact ih m (p + b.size) b.alloc f hf2 hsegl hsent2 hgl hadj.1 hpc2
          (by intro c hc hcalloc; rw [hba])

theorem encodeB_grow (b : Blk) (hb : b.alloc = false) (sz : Int) :
    encodeB b + sz = encodeB ⟨b.size + sz, false, b.pbit⟩ := by
  cases hp : b.pbit <;> simp [encodeB, hb, hp] <;> ring

theorem cpass_alloc (pre : List Blk) (b : Blk) (hb : b.alloc = true)
    (rest : List Blk) : cpass pre (b :: rest) = cpass (b :: pre) rest := by
  cases rest with
  | nil => simp [cpass, hb]
  | cons c r2 => simp [cpass, hb]

theorem cpass_free_nf (pre : List Blk) (b : Blk) (rest : List Blk)
    (hb : b.alloc = false)
    (h : ∀ c, rest.head? = some c → c.alloc = true) :
    cpass pre (b :: rest) = cpass (bmerge pre b) rest := by
  cases rest with
  | nil => simp [cpass, hb]
  | cons c r2 =>
    have hc := h c rfl
    simp [cpass, hb, hc]

theorem cpass_free_fwd (pre : List Blk) (b c : Blk) (rest2 : List Blk)
    (hb : b.alloc = false) (hc : c.alloc = false) :
    cpass pre (b :: c :: rest2)
      = cpass (bmerge pre ⟨b.size + c.size, false, b.pbit⟩) rest2 := by
  simp [cpass, hb, hc]

theorem revshift (b : Blk) (pre rest : List Blk) :
    (b :: pre).reverse ++ rest = pre.reverse ++ (b :: rest) := by
  simp [List.reverse_cons, List.append_assoc]

theorem inFreeSpan_append (l1 l2 : List Blk) (p x : Int) :
    inFreeSpan p (l1 ++ l2) x ↔
      inFreeSpan p l1 x ∨ inFreeSpan (p + sumSizes l1) l2 x := by
  induction l1 generalizing p with
  | nil => simp [inFreeSpan, sumSizes]
  | cons b l ih =>
    rw [List.cons_append]
    show ((b.alloc = false ∧ p ≤ x ∧ x < p + b.size) ∨
        inFreeSpan (p + b.size) (l ++ l2) x) ↔
      ((b.alloc = false ∧ p ≤ x ∧ x < p + b.size) ∨
        inFreeSpan (p + b.size) l x) ∨
          inFreeSpan (p + (b.size + sumSizes l)) l2 x
    rw [ih, or_assoc, ← add_assoc]

theorem pchain_link (pre : List Blk) (b : Blk) (rest : List Blk)
    (h : pchain true (pre.reverse ++ b :: rest) = true) : b.pbit = paOf pre := by
  rw [pchain_append] at h
  simp only [Bool.and_eq_true] at h
  obtain ⟨-, h2⟩ := h
  cases pre with
  | nil =>
    simp only [pchain, Bool.and_eq_true, beq_iff_eq] at h2
    exact h2.1
  | cons q pre2 =>
    rw [chainTail_reverse_cons] at h2
    simp only [pchain, Bool.and_eq_true, beq_iff_eq] at h2
    exact h2.1

theorem pchain_step_fwd (pre : List Blk) (b c : Blk) (rest2 : List Blk)
    (h : pchain true (pre.reverse ++ b :: c :: rest2) = true)
    (hc : c.alloc = false) :
    pchain true (pre.reverse ++ ⟨b.size + c.size, false, b.pbit⟩ :: rest2)
      = true := by
  rw [pchain_append] at h ⊢
  simp only [Bool.and_eq_true] at h
  obtain ⟨h1, h2⟩ := h
  simp only [pchain, Bool.and_eq_true, beq_iff_eq] at h2
  rw [h1]
  simp only [Bool.true_and]
  simp only [pchain, Bool.and_eq_true, beq_iff_eq]
  rw [hc] at h2
  exact ⟨h2.1, h2.2.2⟩

theorem pchain_step_back (pre2 : List Blk) (q b : Blk) (rest : List Blk)
    (h : pchain true ((q :: pre2).reverse ++ b :: rest) = true)
    (hb : b.alloc = false) (hq : q.alloc = false) :
    pchain true ((⟨q.size + b.size, q.alloc, q.pbit⟩ :: pre2).reverse ++ rest)
      = true := by
  rw [List.reverse_cons, List.append_assoc] at h ⊢
  rw [pchain_append] at h ⊢
  simp only [Bool.and_eq_true] at h
  obtain ⟨h1, h2⟩ := h
  rw [h1]
  simp only [Bool.true_and, List.singleton_append]
  simp only [pchain, Bool.and_eq_true, beq_iff_eq] at h2 ⊢
  rw [hb] at h2
  rw [hq]
  exact ⟨h2.1, h2.2.2⟩

theorem span_merge2 (pre : List Blk) (b c : Blk) (rest2 : List Blk)
    (p0 x : Int) (hb : b.alloc = false) (hc : c.alloc = false)
    (hbs : 0 ≤ b.size)
    (h : inFreeSpan p0 (pre.reverse ++ ⟨b.size + c.size, false, b.pbit⟩ :: rest2) x) :
    inFreeSpan p0 (pre.reverse ++ b :: c :: rest2) x := by
  rw [inFreeSpan_append] at h ⊢
  rcases h with h | h
  · exact Or.inl h
  · right
    simp only [inFreeSpan] at h ⊢
    rcases h with ⟨-, h2, h3⟩ | h
    · by_cases hx : x < p0 + sumSizes pre.reverse + b.size
      · exact Or.inl ⟨hb, h2, hx⟩
      · refine Or.inr (Or.inl ⟨hc, by omega, by omega⟩)
    · refine Or.inr (Or.inr ?_)
      have harith : p0 + sumSizes pre.reverse + (b.size + c.size)
          = p0 + sumSizes pre.reverse + b.size + c.size := by ring
      rw [harith] at h
      exact h

theorem span_back (pre2 : List Blk) (q b1 : Blk) (rest1 : List Blk)
    (p0 x : Int) (hq : q.alloc = false) (hb : b1.alloc = false)
    (hqs : 0 ≤ q.size)
    (h : inFreeSpan p0
      ((⟨q.size + b1.size, q.alloc, q.pbit⟩ :: pre2).reverse ++ rest1) x) :
    inFreeSpan p0 ((q :: pre2).reverse ++ b1 :: rest1) x := by
  rw [List.reverse_cons, List.append_assoc] at h ⊢
  rw [inFreeSpan_append] at h ⊢
  rcases h with h | h
  · exact Or.inl h
  · right
    simp only [List.singleton_append, inFreeSpan] at h ⊢
    rcases h with ⟨-, h2, h3⟩ | h
    · by_cases hx : x < p0 + sumSizes pre2.reverse + q.size
      · exact Or.inl ⟨hq, h2, hx⟩
      · refine Or.inr (Or.inl ⟨hb, by omega, by omega⟩)
    · refine Or.inr (Or.inr ?_)
      have harith : p0 + sumSizes pre2.reverse + (q.size + b1.size)
          = p0 + sumSizes pre2.reverse + q.size + b1.size := by ring
      rw [harith] at h
      exact h

theorem seg_last (m : Mem) (p0 : Int) (q : Blk) (pre2 : List Blk)
    (h : seg m p0 ((q :: pre2).reverse) = true) :
    seg m p0 pre2.reverse = true ∧
    m (p0 + sumSizes pre2) = encodeB q ∧
    (q.alloc = false → m (p0 + sumSizes pre2 + q.size - 4) = q.size) := by
  rw [List.reverse_cons, seg_append] at h
  obtain ⟨h1, h2⟩ := h
  rw [sumSizes_reverse] at h2
  rw [seg_cons_iff] at h2
  exact ⟨h1, h2.1, fun hf => h2.2.1 hf⟩

theorem seg_snoc (m : Mem) (p0 : Int) (q : Blk) (pre2 : List Blk)
    (h1 : seg m p0 pre2.reverse = true)
    (h2 : m (p0 + sumSizes pre2) = encodeB q)
    (h3 : q.alloc = false → m (p0 + sumSizes pre2 + q.size - 4) = q.size) :
    seg m p0 ((q :: pre2).reverse) = true := by
  rw [List.reverse_cons, seg_append, sumSizes_reverse]
  refine ⟨h1, ?_⟩
  rw [seg_cons_iff]
  exact ⟨h2, h3, rfl⟩

theorem inFreeSpan_bounds (l : List Blk) (p0 x : Int) (hg : goodSizes l)
    (h : inFreeSpan p0 l x) : p0 ≤ x ∧ x < p0 + sumSizes l := by
  induction l generalizing p0 with
  | nil => cases h
  | cons b l ih =>
    rw [goodSizes_cons] at hg
    have hb8 := hg.1.1
    have hnn := goodSizes_sum_nonneg l hg.2
    rcases h with ⟨-, h1, h2⟩ | h
    · refine ⟨h1, ?_⟩
      show x < p0 + (b.size + sumSizes l)
      omega
    · have := ih (p0 + b.size) hg.2 h
      refine ⟨by omega, ?_⟩
      show x < p0 + (b.size + sumSizes l)
      omega

theorem coalesce_back (f : Nat)
    (IH : ∀ (rest pre : List Blk) (m : Mem) (p0 p : Int),
      rest.length < f → p = p0 + sumSizes pre →
      goodSizes pre → goodSizes rest →
      pchain true (pre.reverse ++ rest) = true →
      seg m p0 pre.reverse = true →
      seg m p rest = true →
      m (p + sumSizes rest) = 1 →
      ∃ m2, coalesceLoop m p f = some m2 ∧
        seg m2 p0 (cpass pre rest) = true ∧
        (∀ x, ¬ inFreeSpan p0 (pre.reverse ++ rest) x → m2 x = m x))
    (pre2 : List Blk) (q b1 : Blk) (rest1 : List Blk) (mA : Mem) (p0 p : Int)
    (hlen : rest1.length < f)
    (hp : p = p0 + sumSizes pre2 + q.size)
    (hq : q.alloc = false) (hb1 : b1.alloc = false)
    (hgq : goodB q) (hgb1 : goodB b1)
    (hgpre2 : goodSizes pre2) (hgrest : goodSizes rest1)
    (hpc : pchain true ((q :: pre2).reverse ++ b1 :: rest1) = true)
    (hsegpre2 : seg mA p0 pre2.reverse = true)
    (hsegl : seg mA (p + b1.size) rest1 = true)
    (hsent : mA (p + b1.size + sumSizes rest1) = 1) :
    ∃ m2,
      coalesceLoop
        (mwrite (mwrite mA (p - q.size) (encodeB ⟨q.size + b1.size, false, q.pbit⟩))
          (p + b1.size - 4) (q.size + b1.size))
        (p + b1.size) f = some m2 ∧
      seg m2 p0 (cpass (⟨q.size + b1.size, q.alloc, q.pbit⟩ :: pre2) rest1) = true ∧
      (∀ x, ¬ inFreeSpan p0 ((q :: pre2).reverse ++ b1 :: rest1) x → m2 x = mA x) := by
  have hq8 := hgq.1
  have hb8 := hgb1.1
  have hnnr := goodSizes_sum_nonneg rest1 hgrest
  have hnn2 := goodSizes_sum_nonneg pre2 hgpre2
  have hsr2 : sumSizes pre2.reverse = sumSizes pre2 := sumSizes_reverse pre2
  set M1 := mwrite (mwrite mA (p - q.size) (encodeB ⟨q.size + b1.size, false, q.pbit⟩))
      (p + b1.size - 4) (q.size + b1.size) with hM1
  have hgood2 : goodB (⟨q.size + b1.size, q.alloc, q.pbit⟩ : Blk) :=
    ⟨by show (8:Int) ≤ q.size + b1.size; omega,
     by show (8:Int) ∣ q.size + b1.size; exact dvd_add hgq.2 hgb1.2⟩
  have hcongr : (⟨q.size + b1.size, q.alloc, q.pbit⟩ : Blk)
      = ⟨q.size + b1.size, false, q.pbit⟩ := by rw [hq]
  obtain ⟨m2, hrun, hsegc, hframe⟩ :=
    IH rest1 (⟨q.size + b1.size, q.alloc, q.pbit⟩ :: pre2) M1 p0 (p + b1.size)
      hlen
      (by show p + b1.size = p0 + (q.size + b1.size + sumSizes pre2); omega)
      ((goodSizes_cons _ _).mpr ⟨hgood2, hgpre2⟩)
      hgrest
      (pchain_step_back pre2 q b1 rest1 hpc hb1 hq)
      (seg_snoc M1 p0 _ pre2
        (seg_ext mA M1 p0 pre2.reverse
          (by intro bb hbb; exact hgpre2 bb (List.mem_reverse.mp hbb))
          (by intro a ha1 ha2
              rw [hsr2] at ha2
              rw [hM1, mwrite_ne _ _ _ _ (by omega), mwrite_ne _ _ _ _ (by omega)])
          hsegpre2)
        (by rw [hcongr, hM1, show p0 + sumSizes pre2 = p - q.size from by omega,
              mwrite_ne _ _ _ _ (by omega), mwrite_same])
        (by intro hfa
            show M1 (p0 + sumSizes pre2 + (q.size + b1.size) - 4) = q.size + b1.size
            rw [hM1,
              show p0 + sumSizes pre2 + (q.size + b1.size) - 4 = p + b1.size - 4
                from by omega,
              mwrite_same]))
      (seg_ext mA M1 (p + b1.size) rest1 hgrest
        (by intro a ha1 ha2
            rw [hM1, mwrite_ne _ _ _ _ (by omega), mwrite_ne _ _ _ _ (by omega)])
        hsegl)
      (by rw [hM1, mwrite_ne _ _ _ _ (by omega), mwrite_ne _ _ _ _ (by omega)]
          exact hsent)
  refine ⟨m2, hrun, hsegc, ?_⟩
  intro x hx
  have hpr2 : p0 + sumSizes pre2.reverse = p - q.size := by omega
  have hin1 : inFreeSpan p0 ((q :: pre2).reverse ++ b1 :: rest1) (p - q.size) := by
    rw [List.reverse_cons, List.append_assoc, List.singleton_append,
      inFreeSpan_append, hpr2]
    exact Or.inr (Or.inl ⟨hq, le_refl _, by omega⟩)
  have hin2 : inFreeSpan p0 ((q :: pre2).reverse ++ b1 :: rest1)
      (p + b1.size - 4) := by
    rw [List.reverse_cons, List.append_assoc, List.singleton_append,
      inFreeSpan_append, hpr2]
    exact Or.inr (Or.inr (Or.inl ⟨hb1, by omega, by omega⟩))
  have hm2 : m2 x = M1 x :=
    hframe x (fun hsp => hx (span_back pre2 q b1 rest1 p0 x hq hb1 (by omega) hsp))
  rw [hm2, hM1, mwrite_ne _ _ _ _ (fun he => hx (by rw [he]; exact hin2)),
    mwrite_ne _ _ _ _ (fun he => hx (by rw [he]; exact hin1))]

/-- Simulation of one `coalesce` scan (allocator.c:228-262) against the list
replay `cpass`: starting anywhere in a well-formed configuration, the loop
terminates, leaves memory representing `cpass pre rest`, and writes only
inside free spans of the configuration. -/
theorem coalesceLoop_sim :
    ∀ (fuel : Nat) (rest pre : List Blk) (m : Mem) (p0 p : Int),
    rest.length < fuel →
    p = p0 + sumSizes pre →
    goodSizes pre → goodSizes rest →
    pchain true (pre.reverse ++ rest) = true →
    seg m p0 pre.reverse = true →
    seg m p rest = true →
    m (p + sumSizes rest) = 1 →
    ∃ m2, coalesceLoop m p fuel = some m2 ∧
      seg m2 p0 (cpass pre rest) = true ∧
      (∀ x, ¬ inFreeSpan p0 (pre.reverse ++ rest) x → m2 x = m x) := by
  intro fuel
  induction fuel with
  | zero =>
    intro rest pre m p0 p hf
    exact absurd hf (by omega)
  | succ f ih =>
    intro rest pre m p0 p hf hp hgpre hgrest hpc hsegpre hseg hsent
    cases rest with
    | nil =>
      have hmp : m p = 1 := by
        have h2 := hsent
        rw [show sumSizes [] = 0 from rfl, add_zero] at h2
        exact h2
      refine ⟨m, by simp [coalesceLoop, hmp], ?_, fun x hx => rfl⟩
      show seg m p0 pre.reverse = true
      exact hsegpre
    | cons b rest' =>
      rw [seg_cons_iff] at hseg
      obtain ⟨hmp, hft, hsegl⟩ := hseg
      rw [goodSizes_cons] at hgrest
      obtain ⟨hgb, hgl⟩ := hgrest
      have hb8 := hgb.1
      have hnnp := goodSizes_sum_nonneg pre hgpre
      have hsr : sumSizes pre.reverse = sumSizes pre := sumSizes_reverse pre
      have hpr : p0 + sumSizes pre.reverse = p := by omega
      have hsent2 : m (p + b.size + sumSizes rest') = 1 := by
        have h2 : p + b.size + sumSizes rest' = p + sumSizes (b :: rest') := by
          show _ = p + (b.size + sumSizes rest')
          ring
        rw [h2]
        exact hsent
      have hne1 : m p ≠ 1 := by rw [hmp]; exact encodeB_ne_one b hgb
      have hbsz : bsize (m p) = b.size := by rw [hmp]; exact bsize_encodeB b hgb
      have hf2 : rest'.length < f := by simp only [List.length_cons] at hf; omega
      simp only [coalesceLoop]
      rw [if_neg hne1]
      rw [hbsz]
      cases hba : b.alloc with
      | true =>
        -- allocated block: the iteration is a pure skip
        have htm : (m p).tmod 2 = 1 := by rw [hmp, encodeB_tmod2 b hgb, hba]; decide
        rw [if_neg (by rw [htm]; norm_num), hbsz]
        obtain ⟨m2, hrun, hsegc, hframe⟩ :=
          ih rest' (b :: pre) m p0 (p + b.size) hf2
            (by show p + b.size = p0 + (b.size + sumSizes pre); omega)
            ((goodSizes_cons _ _).mpr ⟨hgb, hgpre⟩)
            hgl
            (by rw [revshift]; exact hpc)
            (seg_snoc m p0 b pre hsegpre
              (by rw [show p0 + sumSizes pre = p from by omega]; exact hmp)
              (by intro hfa; rw [hba] at hfa; exact absurd hfa (by decide)))
            hsegl hsent2
        refine ⟨m2, hrun, ?_, ?_⟩
        · rw [cpass_alloc pre b hba rest']
          exact hsegc
        · intro x hx
          refine hframe x ?_
          rw [revshift]
          exact hx
      | false =>
        have htm : (m p).tmod 2 = 0 := by rw [hmp, encodeB_tmod2 b hgb, hba]; decide
        rw [if_pos htm]
        by_cases hfwd : m (p + b.size) ≠ 1 ∧ (m (p + b.size)).tmod 2 = 0
        · -- the next header is a free block: the forward merge fires
          rw [if_pos hfwd]
          cases rest' with
          | nil =>
            exfalso
            have h1 : m (p + b.size) = 1 := by
              have h2 := hsent2
              rw [show sumSizes [] = 0 from rfl, add_zero] at h2
              exact h2
            exact hfwd.1 h1
          | cons c rest2 =>
            rw [seg_cons_iff] at hsegl
            obtain ⟨hmc, hftc, hsegl2⟩ := hsegl
            rw [goodSizes_cons] at hgl
            obtain ⟨hgc, hgl2⟩ := hgl
            have hc8 := hgc.1
            have hca : c.alloc = false := by
              cases hcb : c.alloc with
              | false => rfl
              | true =>
                exfalso
                have h2 : (m (p + b.size)).tmod 2 = 1 := by
                  rw [hmc, encodeB_tmod2 c hgc, hcb]; decide
                rw [h2] at hfwd
                exact absurd hfwd.2 (by norm_num)
            have hnnr2 := goodSizes_sum_nonneg rest2 hgl2
            have hf3 : rest2.length < f := by
              simp only [List.length_cons] at hf; omega
            have hV : m p + bsize (m (p + b.size))
                = encodeB ⟨b.size + c.size, false, b.pbit⟩ := by
              rw [hmp, hmc, bsize_encodeB c hgc]
              exact encodeB_grow b hba c.size
            have hgbm : goodB (⟨b.size + c.size, false, b.pbit⟩ : Blk) :=
              ⟨by show (8:Int) ≤ b.size + c.size; omega,
               by show (8:Int) ∣ b.size + c.size; exact dvd_add hgb.2 hgc.2⟩
            rw [hV, mwrite_same m p (encodeB ⟨b.size + c.size, false, b.pbit⟩),
              bsize_encodeB ⟨b.size + c.size, false, b.pbit⟩ hgbm,
              show (⟨b.size + c.size, false, b.pbit⟩ : Blk).size = b.size + c.size
                from rfl]
            set MAt := mwrite (mwrite m p (encodeB ⟨b.size + c.size, false, b.pbit⟩))
                (p + (b.size + c.size) - 4) (b.size + c.size) with hMA
            have hmAcp : MAt p = encodeB ⟨b.size + c.size, false, b.pbit⟩ := by
              rw [hMA, mwrite_ne _ _ _ _ (by omega), mwrite_same]
            have hfootA : MAt (p + (b.size + c.size) - 4) = b.size + c.size := by
              rw [hMA, mwrite_same]
            have hsegpreA : seg MAt p0 pre.reverse = true :=
              seg_ext m MAt p0 pre.reverse
                (by intro bb hbb; exact hgpre bb (List.mem_reverse.mp hbb))
                (by intro a ha1 ha2
                    rw [hsr] at ha2
                    rw [hMA, mwrite_ne _ _ _ _ (by omega),
                      mwrite_ne _ _ _ _ (by omega)])
                hsegpre
            have hseglA : seg MAt (p + (b.size + c.size)) rest2 = true := by
              refine seg_ext m MAt (p + (b.size + c.size)) rest2 hgl2
                (by intro a ha1 ha2
                    rw [hMA, mwrite_ne _ _ _ _ (by omega),
                      mwrite_ne _ _ _ _ (by omega)]) ?_
              rw [show p + (b.size + c.size) = p + b.size + c.size from by ring]
              exact hsegl2
            have hsentA : MAt (p + (b.size + c.size) + sumSizes rest2) = 1 := by
              rw [hMA, mwrite_ne _ _ _ _ (by omega), mwrite_ne _ _ _ _ (by omega),
                show p + (b.size + c.size) + sumSizes rest2
                  = p + b.size + sumSizes (c :: rest2) from by
                  show _ = p + b.size + (c.size + sumSizes rest2); ring]
              exact hsent2
            have hpcA : pchain true
                (pre.reverse ++ ⟨b.size + c.size, false, b.pbit⟩ :: rest2) = true :=
              pchain_step_fwd pre b c rest2 hpc hca
            cases hpb : b.pbit with
            | false =>
              -- the grown block still has a clear p-bit: backward merge too
              rw [if_pos (by rw [hmAcp, encodeB_tmod8 _ hgbm]; simp [hpb])]
              have hlink : b.pbit = paOf pre :=
                pchain_link pre ⟨b.size + c.size, false, b.pbit⟩ rest2 hpcA
              cases pre with
              | nil =>
                exfalso
                rw [hpb] at hlink
                simp [paOf] at hlink
              | cons q pre2 =>
                obtain ⟨hsegpre2A, hmqA, hftqA⟩ := seg_last MAt p0 q pre2 hsegpreA
                have hq : q.alloc = false := by
                  rw [hpb] at hlink
                  exact hlink.symm
                have hgq : goodB q := ((goodSizes_cons q pre2).mp hgpre).1
                have hgpre2 : goodSizes pre2 := ((goodSizes_cons q pre2).mp hgpre).2
                have hq8 := hgq.1
                have hnnpre2 := goodSizes_sum_nonneg pre2 hgpre2
                have hp2 : p = p0 + sumSizes pre2 + q.size := by
                  rw [hp]
                  show p0 + (q.size + sumSizes pre2) = _
                  ring
                have hfA : MAt (p - 4) = q.size := by
                  rw [show p - 4 = p0 + sumSizes pre2 + q.size - 4 from by omega]
                  exact hftqA hq
                have hmqA2 : MAt (p - q.size) = encodeB q := by
                  rw [show p - q.size = p0 + sumSizes pre2 from by omega]
                  exact hmqA
                have hgqm : goodB (⟨q.size + (b.size + c.size), false, q.pbit⟩ : Blk) :=
                  ⟨by show (8:Int) ≤ q.size + (b.size + c.size); omega,
                   by show (8:Int) ∣ q.size + (b.size + c.size)
                      exact dvd_add hgq.2 (dvd_add hgb.2 hgc.2)⟩
                rw [hfA, hmqA2, hmAcp, bsize_encodeB _ hgbm,
                  show (⟨b.size + c.size, false, b.pbit⟩ : Blk).size = b.size + c.size
                    from rfl,
                  encodeB_grow q hq (b.size + c.size),
                  mwrite_same MAt (p - q.size)
                    (encodeB ⟨q.size + (b.size + c.size), false, q.pbit⟩),
                  bsize_encodeB ⟨q.size + (b.size + c.size), false, q.pbit⟩ hgqm,
                  show (⟨q.size + (b.size + c.size), false, q.pbit⟩ : Blk).size
                    = q.size + (b.size + c.size) from rfl,
                  show p - q.size + (q.size + (b.size + c.size)) - 4
                    = p + (b.size + c.size) - 4 from by ring]
                rw [mwrite_ne
                    (mwrite MAt (p - q.size)
                      (encodeB ⟨q.size + (b.size + c.size), false, q.pbit⟩))
                    (p + (b.size + c.size) - 4) (q.size + (b.size + c.size)) p
                    (by omega),
                  mwrite_ne MAt (p - q.size)
                    (encodeB ⟨q.size + (b.size + c.size), false, q.pbit⟩) p
                    (by omega),
                  hmAcp, bsize_encodeB _ hgbm,
                  show (⟨b.size + c.size, false, b.pbit⟩ : Blk).size = b.size + c.size
                    from rfl]
                obtain ⟨m2, hrun, hsegc, hframe⟩ :=
                  coalesce_back f ih pre2 q ⟨b.size + c.size, false, b.pbit⟩ rest2
                    MAt p0 p hf3 hp2 hq rfl hgq hgbm hgpre2 hgl2
                    hpcA hsegpre2A hseglA hsentA
                refine ⟨m2, hrun, ?_, ?_⟩
                · have hbm : bmerge (q :: pre2) ⟨b.size + c.size, false, b.pbit⟩
                      = ⟨q.size + (b.size + c.size), q.alloc, q.pbit⟩ :: pre2 := by
                    simp [bmerge, hpb]
                  rw [cpass_free_fwd (q :: pre2) b c rest2 hba hca, hbm]
                  exact hsegc
                · intro x hx
                  have hinb : inFreeSpan p0 ((q :: pre2).reverse ++ b :: c :: rest2)
                      p := by
                    rw [inFreeSpan_append, hpr]
                    exact Or.inr (Or.inl ⟨hba, le_refl _, by omega⟩)
                  have hinc : inFreeSpan p0 ((q :: pre2).reverse ++ b :: c :: rest2)
                      (p + (b.size + c.size) - 4) := by
                    rw [inFreeSpan_append, hpr]
                    exact Or.inr (Or.inr (Or.inl ⟨hca, by omega, by omega⟩))
                  have hm2 : m2 x = MAt x :=
                    hframe x (fun hsp => hx
                      (span_merge2 (q :: pre2) b c rest2 p0 x hba hca (by omega) hsp))
                  rw [hm2, hMA,
                    mwrite_ne _ _ _ _ (fun he => hx (by rw [he]; exact hinc)),
                    mwrite_ne _ _ _ _ (fun he => hx (by rw [he]; exact hinb))]
            | true =>
              -- p-bit set: the forward merge is the whole iteration
              rw [if_neg (by rw [hmAcp, encodeB_tmod8 _ hgbm]; simp [hpb])]
              rw [hmAcp, bsize_encodeB _ hgbm,
                show (⟨b.size + c.size, false, b.pbit⟩ : Blk).size = b.size + c.size
                  from rfl]
              obtain ⟨m2, hrun, hsegc, hframe⟩ :=
                ih rest2 (⟨b.size + c.size, false, b.pbit⟩ :: pre) MAt p0
                  (p + (b.size + c.size)) hf3
                  (by show p + (b.size + c.size) = p0 + (b.size + c.size + sumSizes pre)
                      omega)
                  ((goodSizes_cons _ _).mpr ⟨hgbm, hgpre⟩)
                  hgl2
                  (by rw [revshift]; exact hpcA)
                  (seg_snoc MAt p0 _ pre hsegpreA
                    (by rw [show p0 + sumSizes pre = p from by omega]; exact hmAcp)
                    (by intro hfa
                        show MAt (p0 + sumSizes pre + (b.size + c.size) - 4)
                          = b.size + c.size
                        rw [show p0 + sumSizes pre + (b.size + c.size) - 4
                            = p + (b.size + c.size) - 4 from by omega]
                        exact hfootA))
                  hseglA hsentA
              refine ⟨m2, hrun, ?_, ?_⟩
              · rw [cpass_free_fwd pre b c rest2 hba hca,
                  show bmerge pre ⟨b.size + c.size, false, b.pbit⟩
                    = ⟨b.size + c.size, false, b.pbit⟩ :: pre from by
                    simp [bmerge, hpb]]
                exact hsegc
              · intro x hx
                have hinb : inFreeSpan p0 (pre.reverse ++ b :: c :: rest2) p := by
                  rw [inFreeSpan_append, hpr]
                  exact Or.inr (Or.inl ⟨hba, le_refl _, by omega⟩)
                have hinc : inFreeSpan p0 (pre.reverse ++ b :: c :: rest2)
                    (p + (b.size + c.size) - 4) := by
                  rw [inFreeSpan_append, hpr]
                  exact Or.inr (Or.inr (Or.inl ⟨hca, by omega, by omega⟩))
                have hm2 : m2 x = MAt x :=
                  hframe x (fun hsp => hx (by
                    rw [revshift] at hsp
                    exact span_merge2 pre b c rest2 p0 x hba hca (by omega) hsp))
                rw [hm2, hMA,
                  mwrite_ne _ _ _ _ (fun he => hx (by rw [he]; exact hinc)),
                  mwrite_ne _ _ _ _ (fun he => hx (by rw [he]; exact hinb))]
        · -- the next header is the end mark or allocated: no forward merge
          rw [if_neg hfwd]
          have hnf : ∀ cc, rest'.head? = some cc → cc.alloc = true := by
            intro cc hcc
            cases rest' with
            | nil => simp at hcc
            | cons c rest2 =>
              have hc2 : c = cc := by simpa using hcc
              rw [seg_cons_iff] at hsegl
              have hgc : goodB c := ((goodSizes_cons c rest2).mp hgl).1
              cases hcv : cc.alloc with
              | true => rfl
              | false =>
                exfalso
                apply hfwd
                refine ⟨by rw [hsegl.1]; exact encodeB_ne_one c hgc, ?_⟩
                rw [hsegl.1, encodeB_tmod2 c hgc, hc2, hcv]
                decide
          cases hpb : b.pbit with
          | false =>
            -- clear p-bit: backward merge with the previous block
            have htm8 : (m p).tmod 8 = 0 := by
              rw [hmp, encodeB_tmod8 b hgb, hba, hpb]; decide
            rw [if_pos htm8]
            have hlink : b.pbit = paOf pre := pchain_link pre b rest' hpc
            cases pre with
            | nil =>
              exfalso
              rw [hpb] at hlink
              simp [paOf] at hlink
            | cons q pre2 =>
              obtain ⟨hsegpre2, hmq, hftq⟩ := seg_last m p0 q pre2 hsegpre
              have hq : q.alloc = false := by
                rw [hpb] at hlink
                exact hlink.symm
              have hgq : goodB q := ((goodSizes_cons q pre2).mp hgpre).1
              have hgpre2 : goodSizes pre2 := ((goodSizes_cons q pre2).mp hgpre).2
              have hq8 := hgq.1
              have hnnpre2 := goodSizes_sum_nonneg pre2 hgpre2
              have hp2 : p = p0 + sumSizes pre2 + q.size := by
                rw [hp]
                show p0 + (q.size + sumSizes pre2) = _
                ring
              have hfA : m (p - 4) = q.size := by
                rw [show p - 4 = p0 + sumSizes pre2 + q.size - 4 from by omega]
                exact hftq hq
              have hmq2 : m (p - q.size) = encodeB q := by
                rw [show p - q.size = p0 + sumSizes pre2 from by omega]
                exact hmq
              have hgqm : goodB (⟨q.size + b.size, false, q.pbit⟩ : Blk) :=
                ⟨by show (8:Int) ≤ q.size + b.size; omega,
                 by show (8:Int) ∣ q.size + b.size; exact dvd_add hgq.2 hgb.2⟩
              rw [hfA, hmq2, hmp, bsize_encodeB b hgb, encodeB_grow q hq b.size,
                mwrite_same m (p - q.size) (encodeB ⟨q.size + b.size, false, q.pbit⟩),
                bsize_encodeB ⟨q.size + b.size, false, q.pbit⟩ hgqm,
                show (⟨q.size + b.size, false, q.pbit⟩ : Blk).size = q.size + b.size
                  from rfl,
                show p - q.size + (q.size + b.size) - 4 = p + b.size - 4 from by ring]
              rw [mwrite_ne
                  (mwrite m (p - q.size) (encodeB ⟨q.size + b.size, false, q.pbit⟩))
                  (p + b.size - 4) (q.size + b.size) p (by omega),
                mwrite_ne m (p - q.size) (encodeB ⟨q.size + b.size, false, q.pbit⟩) p
                  (by omega),
                hmp, bsize_encodeB b hgb]
              obtain ⟨m2, hrun, hsegc, hframe⟩ :=
                coalesce_back f ih pre2 q b rest' m p0 p hf2 hp2 hq hba hgq hgb
                  hgpre2 hgl hpc hsegpre2 hsegl hsent2
              refine ⟨m2, hrun, ?_, ?_⟩
              · have hbm : bmerge (q :: pre2) b
                    = ⟨q.size + b.size, q.alloc, q.pbit⟩ :: pre2 := by
                  simp [bmerge, hpb]
                rw [cpass_free_nf (q :: pre2) b rest' hba hnf, hbm]
                exact hsegc
              · exact hframe
          | true =>
            -- p-bit set: the iteration does not write at all
            have htm8 : (m p).tmod 8 = 2 := by
              rw [hmp, encodeB_tmod8 b hgb, hba, hpb]; decide
            rw [if_neg (by rw [htm8]; norm_num), hbsz]
            obtain ⟨m2, hrun, hsegc, hframe⟩ :=
              ih rest' (b :: pre) m p0 (p + b.size) hf2
                (by show p + b.size = p0 + (b.size + sumSizes pre); omega)
                ((goodSizes_cons _ _).mpr ⟨hgb, hgpre⟩)
                hgl
                (by rw [revshift]; exact hpc)
                (seg_snoc m p0 b pre hsegpre
                  (by rw [show p0 + sumSizes pre = p from by omega]; exact hmp)
                  (by intro hfa
                      rw [show p0 + sumSizes pre + b.size - 4 = p + b.size - 4
                        from by omega]
                      exact hft hfa))
                hsegl hsent2
            refine ⟨m2, hrun, ?_, ?_⟩
            · rw [cpass_free_nf pre b rest' hba hnf,
                show bmerge pre b = b :: pre from by simp [bmerge, hpb]]
              exact hsegc
            · intro x hx
              refine hframe x ?_
              rw [revshift]
              exact hx

/-- Allocated blocks and the cells beyond the configuration lie outside every
free span. -/
theorem alloc_span_free (l1 : List Blk) (b : Blk) (l2 : List Blk) (p0 x : Int)
    (hg : goodSizes (l1 ++ b :: l2)) (hb : b.alloc = true)
    (hx1 : p0 + sumSizes l1 ≤ x) (hx2 : x < p0 + sumSizes l1 + b.size) :
    ¬ inFreeSpan p0 (l1 ++ b :: l2) x := by
  intro hsp
  rw [inFreeSpan_append] at hsp
  have hg1 : goodSizes l1 := fun c hc => hg c (by simp [hc])
  have hg2 : goodSizes l2 := fun c hc => hg c (by simp [hc])
  rcases hsp with h | h
  · have := inFreeSpan_bounds l1 p0 x hg1 h
    omega
  · rcases h with ⟨hf, -, -⟩ | h
    · rw [hb] at hf
      cases hf
    · have := inFreeSpan_bounds l2 (p0 + sumSizes l1 + b.size) x hg2 h
      omega

/-- Combined behaviour of a `coalesce` call on a well-formed arena: it
returns 0, the new memory represents `mr l`, the end mark survives, and
cells outside the free spans of `l` are untouched. -/
theorem coalesce_spec (s : AllocState) (l : List Blk) (fuel : Nat)
    (hfuel : l.length < fuel)
    (hg : goodSizes l) (hpc : pchain true l = true)
    (hseg : seg s.mem s.first_block l = true)
    (hsent : s.mem (s.first_block + sumSizes l) = 1) :
    ∃ m2, coalesce s fuel = some (0, { s with mem := m2 }) ∧
      seg m2 s.first_block (mr l) = true ∧
      m2 (s.first_block + sumSizes (mr l)) = 1 ∧
      (∀ x, ¬ inFreeSpan s.first_block l x → m2 x = s.mem x) := by
  obtain ⟨m2, hrun, hsegc, hframe⟩ :=
    coalesceLoop_sim fuel l [] s.mem s.first_block s.first_block hfuel
      (by show s.first_block = s.first_block + 0; ring)
      (fun b hb => absurd hb (List.not_mem_nil b))
      hg hpc rfl hseg hsent
  have hc : cpass ([] : List Blk) l = mr l := by
    rw [cpass_glue l.length l [] le_rfl hpc]
    cases hml : mr l with
    | nil => simp [glue]
    | cons c out2 => simp [glue]
  refine ⟨m2, ?_, ?_, ?_, fun x hx => hframe x hx⟩
  · unfold coalesce
    rw [hrun]
  · rw [← hc]
    exact hsegc
  · rw [mr_sum]
    have hnot : ¬ inFreeSpan s.first_block l (s.first_block + sumSizes l) := by
      intro hsp
      have := inFreeSpan_bounds l s.first_block (s.first_block + sumSizes l) hg hsp
      omega
    rw [hframe _ hnot]
    exact hsent

/-- Concrete arena for the coalesce witnesses: three adjacent free 8-byte
blocks at 8, 16 and 24, end mark at 32. -/
def c7m : Mem :=
  mwrite (mwrite (mwrite (mwrite (mwrite (mwrite (mwrite (fun _ => 0)
    8 10) 12 8) 16 8) 20 8) 24 8) 28 8) 32 1

def c7s : AllocState := ⟨c7m, 8, 24, true⟩

def c7l : List Blk := [⟨8, false, true⟩, ⟨8, false, false⟩, ⟨8, false, false⟩]

/-- C7: after one `coalesce` call on a well-formed arena holding the block
list `l`, the arena holds exactly `mr l` — every maximal run of adjacent
free blocks (in particular a run of three) collapsed into a single free
block in that one pass — and no two adjacent blocks of the result are both
free. -/
theorem coalesce_no_adjacent_free (s : AllocState) (l : List Blk) (fuel : Nat)
    (hfuel : l.length < fuel)
    (hg : goodSizes l) (hpc : pchain true l = true)
    (hseg : seg s.mem s.first_block l = true)
    (hsent : s.mem (s.first_block + sumSizes l) = 1) :
    ∃ m2, coalesce s fuel = some (0, { s with mem := m2 }) ∧
      reprB m2 s.first_block (mr l) ∧
      noAdjFree (mr l) = true := by
  obtain ⟨m2, hco, hseg2, hsent2, -⟩ :=
    coalesce_spec s l fuel hfuel hg hpc hseg hsent
  exact ⟨m2, hco, ⟨hseg2, hsent2⟩, mr_noAdjFree l⟩

/-- C7 witness: three adjacent free blocks of 8 bytes merge into one. -/
theorem coalesce_no_adjacent_free_witness :
    c7l.length < 4 ∧ goodSizes c7l ∧ pchain true c7l = true ∧
    seg c7s.mem c7s.first_block c7l = true ∧
    c7s.mem (c7s.first_block + sumSizes c7l) = 1 ∧
    (∃ m2, coalesce c7s 4 = some (0, { c7s with mem := m2 }) ∧
      reprB m2 c7s.first_block (mr c7l) ∧
      noAdjFree (mr c7l) = true) :=
  ⟨by decide, by decide, by decide, by decide, by decide,
   coalesce_no_adjacent_free c7s c7l 4 (by decide) (by decide) (by decide)
     (by decide) (by decide)⟩

/-- C8: `coalesce` is idempotent: a second call made immediately after the
first returns success with the arena — hence in particular the block list —
byte-for-byte identical to the state after the first call. -/
theorem coalesce_idempotent (s : AllocState) (l : List Blk) (fuel : Nat)
    (hfuel : l.length < fuel)
    (hg : goodSizes l) (hpc : pchain true l = true)
    (hseg : seg s.mem s.first_block l = true)
    (hsent : s.mem (s.first_block + sumSizes l) = 1) :
    ∃ s2, coalesce s fuel = some (0, s2) ∧ coalesce s2 fuel = some (0, s2) := by
  obtain ⟨m2, hco, hseg2, hsent2, -⟩ :=
    coalesce_spec s l fuel hfuel hg hpc hseg hsent
  refine ⟨{ s with mem := m2 }, hco, ?_⟩
  have hnoop : coalesceLoop m2 s.first_block fuel = some m2 :=
    coalesceLoop_noop (mr l) m2 s.first_block true fuel
      (by have := mr_length_le l; omega)
      hseg2 hsent2 (mr_good l hg) (mr_noAdjFree l) (mr_pchain l true hpc)
      (fun b _ _ => rfl)
  have hmem : ({ s with mem := m2 } : AllocState).mem = m2 := rfl
  have hfb : ({ s with mem := m2 } : AllocState).first_block = s.first_block := rfl
  unfold coalesce
  rw [hmem, hfb, hnoop]

/-- C8 witness: idempotence on the three-free-block arena. -/
theorem coalesce_idempotent_witness :
    c7l.length < 4 ∧ goodSizes c7l ∧ pchain true c7l = true ∧
    seg c7s.mem c7s.first_block c7l = true ∧
    c7s.mem (c7s.first_block + sumSizes c7l) = 1 ∧
    (∃ s2, coalesce c7s 4 = some (0, s2) ∧ coalesce s2 4 = some (0, s2)) :=
  ⟨by decide, by decide, by decide, by decide, by decide,
   coalesce_idempotent c7s c7l 4 (by decide) (by decide) (by decide)
     (by decide) (by decide)⟩

/-- Concrete arena for the C10 witness: free block at 8, allocated block at
16, free block at 24, end mark at 32. -/
def c10m : Mem :=
  mwrite (mwrite (mwrite (mwrite (mwrite (mwrite (fun _ => 0)
    8 10) 12 8) 16 9) 24 10) 28 8) 32 1

def c10s : AllocState := ⟨c10m, 8, 24, true⟩

def c10l1 : List Blk := [⟨8, false, true⟩]

def c10b : Blk := ⟨8, true, false⟩

def c10l2 : List Blk := [⟨8, false, true⟩]

/-- C10: `coalesce` writes only inside free blocks: every byte of an
allocated block — in particular its header, so its size, allocated bit and
p-bit — and the end-mark cell are identical before and after the call. -/
theorem coalesce_preserves_allocated (s : AllocState) (l1 : List Blk) (b : Blk)
    (l2 : List Blk) (fuel : Nat)
    (hfuel : (l1 ++ b :: l2).length < fuel)
    (hg : goodSizes (l1 ++ b :: l2))
    (hpc : pchain true (l1 ++ b :: l2) = true)
    (hseg : seg s.mem s.first_block (l1 ++ b :: l2) = true)
    (hsent : s.mem (s.first_block + sumSizes (l1 ++ b :: l2)) = 1)
    (hb : b.alloc = true) :
    ∃ m2, coalesce s fuel = some (0, { s with mem := m2 }) ∧
      (∀ x, s.first_block + sumSizes l1 ≤ x →
        x < s.first_block + sumSizes l1 + b.size → m2 x = s.mem x) ∧
      m2 (s.first_block + sumSizes l1) = encodeB b ∧
      m2 (s.first_block + sumSizes (l1 ++ b :: l2))
        = s.mem (s.first_block + sumSizes (l1 ++ b :: l2)) := by
  obtain ⟨m2, hco, -, -, hframe⟩ :=
    coalesce_spec s (l1 ++ b :: l2) fuel hfuel hg hpc hseg hsent
  have hb8 : (8:Int) ≤ b.size := (hg b (by simp)).1
  refine ⟨m2, hco, ?_, ?_, ?_⟩
  · intro x h1 h2
    exact hframe x (alloc_span_free l1 b l2 s.first_block x hg hb h1 h2)
  · have hhd : s.mem (s.first_block + sumSizes l1) = encodeB b := by
      rw [seg_append] at hseg
      have h2 := hseg.2
      rw [seg_cons_iff] at h2
      exact h2.1
    rw [hframe _ (alloc_span_free l1 b l2 s.first_block _ hg hb (le_refl _)
      (by omega))]
    exact hhd
  · refine hframe _ ?_
    intro hsp
    have := inFreeSpan_bounds (l1 ++ b :: l2) s.first_block _ hg hsp
    omega

/-- C10 witness: the middle allocated block and the end mark survive a
coalesce untouched. -/
theorem coalesce_preserves_allocated_witness :
    (c10l1 ++ c10b :: c10l2).length < 4 ∧
    goodSizes (c10l1 ++ c10b :: c10l2) ∧
    pchain true (c10l1 ++ c10b :: c10l2) = true ∧
    seg c10s.mem c10s.first_block (c10l1 ++ c10b :: c10l2) = true ∧
    c10s.mem (c10s.first_block + sumSizes (c10l1 ++ c10b :: c10l2)) = 1 ∧
    c10b.alloc = true ∧
    (∃ m2, coalesce c10s 4 = some (0, { c10s with mem := m2 }) ∧
      (∀ x, c10s.first_block + sumSizes c10l1 ≤ x →
        x < c10s.first_block + sumSizes c10l1 + c10b.size → m2 x = c10s.mem x) ∧
      m2 (c10s.first_block + sumSizes c10l1) = encodeB c10b ∧
      m2 (c10s.first_block + sumSizes (c10l1 ++ c10b :: c10l2))
        = c10s.mem (c10s.first_block + sumSizes (c10l1 ++ c10b :: c10l2))) :=
  ⟨by decide, by decide, by decide, by decide, by decide, by decide,
   coalesce_preserves_allocated c10s c10l1 c10b c10l2 4
     (by decide) (by decide) (by decide) (by decide)
     (by decide) (by decide)⟩
